import Mathlib

/-!
Verification development for the template-guided extraction, generation and
verification pipeline.  Python sources are shallowly embedded: strings are
modelled as lists of characters, floats as rationals, dictionaries as
association lists that keep insertion order, and fallible operations return
Option.  Every definition is translated from the corresponding function in
the repository; the file then proves or refutes the specification claims
about those functions.
-/

namespace Pipeline

/-! ## Confidence aggregation (verification_agent.verify_generated_content, lines 96-153)

The per-claim verification loop only inspects each claim verification's
confidence value, so the aggregation state is modelled as a fold over the
list of per-claim confidences. -/

/-- State of the counting loop in verify_generated_content: the counters
high_confidence_count, medium_confidence_count and low_confidence_count,
updated per claim exactly as in lines 115-121 of verification_agent.py. -/
def bucket_step (acc : Nat × Nat × Nat) (confidence : ℚ) : Nat × Nat × Nat :=
  if confidence ≥ 0.8 then (acc.1 + 1, acc.2.1, acc.2.2)
  else if confidence ≥ 0.5 then (acc.1, acc.2.1 + 1, acc.2.2)
  else (acc.1, acc.2.1, acc.2.2 + 1)

/-- The three bucket counters after the per-claim loop of
verify_generated_content has processed every claim confidence. -/
def bucket_counts (confidences : List ℚ) : Nat × Nat × Nat :=
  confidences.foldl bucket_step (0, 0, 0)

/-- Overall confidence score, verification_agent.py lines 146-153:
(high * 1.0 + medium * 0.65 + low * 0.3) / total_claims when there is at
least one claim, 0.5 otherwise. -/
def overall_confidence (confidences : List ℚ) : ℚ :=
  let counts := bucket_counts confidences
  if confidences.length > 0 then
    ((counts.1 : ℚ) * 1.0 + (counts.2.1 : ℚ) * 0.65 + (counts.2.2 : ℚ) * 0.3) /
      (confidences.length : ℚ)
  else 0.5

/-- Bucket membership as the specification words it: high when the
confidence is at least 0.8. -/
def is_high (c : ℚ) : Prop := 0.8 ≤ c

/-- Medium bucket: at least 0.5 but not high. -/
def is_medium (c : ℚ) : Prop := ¬ (0.8 ≤ c) ∧ 0.5 ≤ c

/-- Low bucket: below 0.5. -/
def is_low (c : ℚ) : Prop := ¬ (0.8 ≤ c) ∧ ¬ (0.5 ≤ c)

instance : DecidablePred is_high := fun c => inferInstanceAs (Decidable (0.8 ≤ c))

instance : DecidablePred is_medium := fun _ => inferInstanceAs (Decidable (_ ∧ _))

instance : DecidablePred is_low := fun _ => inferInstanceAs (Decidable (_ ∧ _))

theorem bucket_counts_go (confidences : List ℚ) (a b c : Nat) :
    confidences.foldl bucket_step (a, b, c) =
      (a + (confidences.filter (fun x => decide (is_high x))).length,
       b + (confidences.filter (fun x => decide (is_medium x))).length,
       c + (confidences.filter (fun x => decide (is_low x))).length) := by
  induction confidences generalizing a b c with
  | nil => simp
  | cons x xs ih =>
    by_cases h8 : (0.8 : ℚ) ≤ x
    · have : bucket_step (a, b, c) x = (a + 1, b, c) := by
        simp [bucket_step, ge_iff_le, h8]
      simp only [List.foldl_cons, this, ih]
      simp [is_high, is_medium, is_low, h8, Nat.add_assoc, Nat.add_comm 1]
    · by_cases h5 : (0.5 : ℚ) ≤ x
      · have : bucket_step (a, b, c) x = (a, b + 1, c) := by
          simp [bucket_step, ge_iff_le, h8, h5]
        simp only [List.foldl_cons, this, ih]
        simp [is_high, is_medium, is_low, List.filter_cons, h8, h5, not_le.mp h8,
          Nat.add_assoc, Nat.add_comm 1]
      · have : bucket_step (a, b, c) x = (a, b, c + 1) := by
          simp [bucket_step, ge_iff_le, h8, h5]
        simp only [List.foldl_cons, this, ih]
        simp [is_high, is_medium, is_low, List.filter_cons, h8, h5, not_le.mp h8,
          not_le.mp h5, Nat.add_assoc, Nat.add_comm 1]

theorem bucket_counts_eq (confidences : List ℚ) :
    bucket_counts confidences =
      ((confidences.filter (fun x => decide (is_high x))).length,
       (confidences.filter (fun x => decide (is_medium x))).length,
       (confidences.filter (fun x => decide (is_low x))).length) := by
  have := bucket_counts_go confidences 0 0 0
  simpa [bucket_counts] using this

/-- C1: the overall verification confidence over a list of extracted claim
confidences equals (high * 1.0 + medium * 0.65 + low * 0.3) / total, where a
claim is high when its confidence is at least 0.8, medium when at least 0.5,
and low otherwise; it is 0.5 when there are no claims; and on the concrete
confidences 0.9, 0.9, 0.6, 0.2 the aggregate is exactly 0.7375. -/
theorem confidence_aggregation_formula :
    (∀ confidences : List ℚ,
      overall_confidence confidences =
        if confidences.length = 0 then 0.5
        else
          (((confidences.filter (fun x => decide (is_high x))).length : ℚ) * 1.0 +
           ((confidences.filter (fun x => decide (is_medium x))).length : ℚ) * 0.65 +
           ((confidences.filter (fun x => decide (is_low x))).length : ℚ) * 0.3) /
            (confidences.length : ℚ)) ∧
    overall_confidence [0.9, 0.9, 0.6, 0.2] = 0.7375 := by
  constructor
  · intro confidences
    rw [overall_confidence, bucket_counts_eq]
    rcases Nat.eq_zero_or_pos confidences.length with h | h
    · simp [h]
    · simp [Nat.pos_iff_ne_zero.mp h, h]
  · norm_num [overall_confidence, bucket_counts, bucket_step]

/-! ## Python string primitives

Python strings are modelled as lists of characters.  The helpers below follow
the semantics of the corresponding Python built-ins (str.strip, str.lower,
the `in` operator, str.split and friends) for the character sets that the
sources use. -/

/-- Python strings, modelled as lists of characters. -/
abbrev Str := List Char

/-- Python str.isspace for a single character (the six ASCII whitespace
characters recognised by str.strip and re's whitespace class). -/
def py_is_space (c : Char) : Bool :=
  c = ' ' || c = '\t' || c = '\n' || c = '\r' || c = '\x0b' || c = '\x0c'

/-- Python str.strip with no argument: drop leading and trailing whitespace. -/
def py_strip (s : Str) : Str :=
  ((s.dropWhile py_is_space).reverse.dropWhile py_is_space).reverse

/-- Python str.lower (ASCII letters; the sources only compare ASCII). -/
def py_lower (s : Str) : Str := s.map Char.toLower

/-- Python substring containment a in b. -/
def py_in (a : Str) : Str → Bool
  | [] => a.isEmpty
  | b :: rest => a.isPrefixOf (b :: rest) || py_in a rest

theorem length_dropWhile_le (p : Char → Bool) (l : Str) :
    (l.dropWhile p).length ≤ l.length := by
  induction l with
  | nil => simp
  | cons c rest ih =>
    by_cases h : p c
    · simpa [List.dropWhile_cons, h] using Nat.le_succ_of_le ih
    · simp [List.dropWhile_cons, h]

/-- Python str.split(sep) for a non-empty separator: split on every
leftmost, non-overlapping occurrence, keeping empty pieces.  The inner
worker carries the piece accumulated so far in reverse. -/
def split_seq_go (d : Char) (ds : Str) : Str → Str → List Str
  | [], acc => [acc.reverse]
  | c :: rest, acc =>
    if (d :: ds).isPrefixOf (c :: rest) then
      acc.reverse :: split_seq_go d ds (rest.drop ds.length) []
    else
      split_seq_go d ds rest (c :: acc)
  termination_by s _ => s.length
  decreasing_by
    · simp only [List.length_cons, List.length_drop]; omega
    · simp only [List.length_cons]; omega

/-- Python str.split(sep).  An empty separator raises in Python and is never
used by the sources; it is mapped to the identity split. -/
def split_seq (sep s : Str) : List Str :=
  match sep with
  | [] => [s]
  | d :: ds => split_seq_go d ds s []

/-- Python str.split() with no argument: split on whitespace runs, dropping
empty pieces. -/
def split_ws_go : Str → Str → List Str
  | acc, [] => if acc = [] then [] else [acc.reverse]
  | acc, c :: rest =>
    if py_is_space c then
      if acc = [] then split_ws_go [] rest
      else acc.reverse :: split_ws_go [] rest
    else split_ws_go (c :: acc) rest

def split_ws (s : Str) : List Str := split_ws_go [] s

/-- Characters accepted by the character class of the markdown separator-row
pattern [whitespace, dash, colon, pipe]. -/
def sep_class (c : Char) : Bool :=
  py_is_space c || c = '-' || c = ':' || c = '|'

/-- Full match of a stripped line against the separator-row regex: a pipe,
one or more separator-class characters, and a closing pipe. -/
def matches_sep_pattern : Str → Bool
  | '|' :: rest =>
    decide (2 ≤ rest.length) && rest.all sep_class && (rest.getLast? = some '|')
  | _ => false

namespace VerificationFallback

/-! ## Verification fallback paths

(verification_agent.verify_generated_content lines 84-91 and
improved_agent_flow.process_section_with_verification lines 86-120.) -/

/-- Shape of the verification result dictionaries built on the degraded
paths: verified flag, confidence, issues and warnings. -/
structure VerificationSummary where
  verified : Bool
  confidence : ℚ
  issues : List Str
  warnings : List Str
  deriving DecidableEq, Repr

/-- Early return of verify_generated_content when self.llm is None
(verification_agent.py lines 84-91). -/
def no_llm_result : VerificationSummary :=
  { verified := false
    confidence := 0.5
    issues := ["Verification LLM not available".toList]
    warnings := [] }

/-- Dispatch at the top of verify_generated_content: with no LLM the method
returns no_llm_result at once; otherwise it runs the claim-verification
body, abstracted here as the argument normal. -/
def verify_generated_content_entry (llm_available : Bool)
    (normal : VerificationSummary) : VerificationSummary :=
  if llm_available then normal else no_llm_result

/-- Fallback result built by process_section_with_verification when the
verification call raises (improved_agent_flow.py lines 105-113); e is the
exception text. -/
def verification_error_result (e : Str) : VerificationSummary :=
  { verified := false
    confidence := 0.5
    issues := ["Verification error: ".toList ++ e]
    warnings := ["Could not complete verification".toList] }

/-- Result used when verification is disabled or the agent could not be
initialised (improved_agent_flow.py lines 114-120). -/
def verification_disabled_result : VerificationSummary :=
  { verified := true
    confidence := 0.75
    issues := []
    warnings := ["Verification disabled".toList] }

/-- Verification-step selection in process_section_with_verification, lines
86-120: with verification enabled and an agent, the step result is used (a
raised exception, modelled as none, degrades to verification_error_result);
otherwise verification_disabled_result is returned. -/
def process_section_verification (enable_verification agent_available : Bool)
    (step : Option VerificationSummary) (e : Str) : VerificationSummary :=
  if enable_verification && agent_available then
    match step with
    | some r => r
    | none => verification_error_result e
  else verification_disabled_result

/-- C4 counterexample: with the verification LLM unavailable, the
verification step returns confidence 0.5 with an issue text, not the fixed
default 0.75 with a disabled warning as the claim states. -/
theorem verification_default_confidence_counterexample :
    (verify_generated_content_entry false
      { verified := true, confidence := 1, issues := [], warnings := [] }).confidence
        = 0.5 ∧
    ¬ ((0.5 : ℚ) = 0.75) ∧
    (verify_generated_content_entry false
      { verified := true, confidence := 1, issues := [], warnings := [] }).warnings
        = [] := by
  refine ⟨rfl, by norm_num, rfl⟩

/-- C4 amended: the 0.75 default with the explicit disabled warning is
produced exactly when verification is disabled or the verification agent
failed to initialise; when the verification LLM itself is unavailable inside
the step, the step instead returns confidence 0.5 with the issue
"Verification LLM not available"; a raised verification error also degrades
to confidence 0.5 instead of failing the request. -/
theorem verification_default_confidence_amended :
    (∀ enable_verification agent_available step e,
      (enable_verification && agent_available) = false →
        process_section_verification enable_verification agent_available step e
          = verification_disabled_result) ∧
    verification_disabled_result.confidence = 0.75 ∧
    verification_disabled_result.warnings = ["Verification disabled".toList] ∧
    (∀ normal, verify_generated_content_entry false normal = no_llm_result) ∧
    no_llm_result.confidence = 0.5 ∧
    no_llm_result.issues = ["Verification LLM not available".toList] ∧
    (∀ enable_verification agent_available e,
      process_section_verification enable_verification agent_available none e
        = if enable_verification && agent_available then verification_error_result e
          else verification_disabled_result) ∧
    (∀ e, (verification_error_result e).confidence = 0.5) := by
  refine ⟨?_, rfl, rfl, fun _ => rfl, rfl, rfl, ?_, fun _ => rfl⟩
  · intro ev av step e h
    simp [process_section_verification, h]
  · intro ev av e
    by_cases h : (ev && av) = true
    · simp [process_section_verification, h]
    · simp [process_section_verification, Bool.not_eq_true _ ▸ h]

/-- Witness for the amended C4 theorem at concrete inputs. -/
theorem verification_default_confidence_amended_witness :
    process_section_verification false false none [] = verification_disabled_result :=
  verification_default_confidence_amended.1 false false none [] rfl

end VerificationFallback

namespace Dedup

/-! ## Retrieval-result deduplication (extractor._deduplicate_results, lines 110-119) -/

/-- A retrieval result: text, similarity score and source metadata. -/
structure RetrievalResult where
  text : Str
  score : ℚ
  file_name : Str
  deriving DecidableEq, Repr

/-- The first 100 characters of the result text, used as its identity. -/
def text_id (r : RetrievalResult) : Str := r.text.take 100

/-- Lookup in the seen dictionary, modelled as an insertion-ordered
association list. -/
def alist_get : List (Str × RetrievalResult) → Str → Option RetrievalResult
  | [], _ => none
  | (k1, v1) :: rest, k => if k1 = k then some v1 else alist_get rest k

/-- Assignment seen[k] = v with Python dict semantics: an existing key keeps
its position, a new key is appended. -/
def alist_set (k : Str) (v : RetrievalResult) :
    List (Str × RetrievalResult) → List (Str × RetrievalResult)
  | [] => [(k, v)]
  | (k1, v1) :: rest =>
    if k1 = k then (k1, v) :: rest else (k1, v1) :: alist_set k v rest

/-- One iteration of the deduplication loop: keep the incoming result if its
100-character prefix is new or its score is strictly higher than the stored
one. -/
def seen_step (seen : List (Str × RetrievalResult)) (r : RetrievalResult) :
    List (Str × RetrievalResult) :=
  match alist_get seen (text_id r) with
  | none => alist_set (text_id r) r seen
  | some cur => if r.score > cur.score then alist_set (text_id r) r seen else seen

/-- Stable descending insertion by score (ties keep earlier elements first),
matching the output of Python sorted(..., reverse=True). -/
def insert_desc (r : RetrievalResult) : List RetrievalResult → List RetrievalResult
  | [] => [r]
  | x :: xs => if x.score ≤ r.score then r :: x :: xs else x :: insert_desc r xs

/-- Sort a list of results by score, descending and stable. -/
def sort_by_score_desc (l : List RetrievalResult) : List RetrievalResult :=
  l.foldr insert_desc []

/-- The deduplication routine: build the seen dictionary over all results in
order, then return its values sorted by descending score. -/
def deduplicate_results (results : List RetrievalResult) : List RetrievalResult :=
  sort_by_score_desc ((results.foldl seen_step []).map Prod.snd)

theorem insert_desc_perm (r : RetrievalResult) (l : List RetrievalResult) :
    List.Perm (insert_desc r l) (r :: l) := by
  induction l with
  | nil => rfl
  | cons x xs ih =>
    rw [insert_desc]
    split
    · rfl
    · exact (ih.cons x).trans (List.Perm.swap r x xs)

theorem sort_by_score_desc_perm (l : List RetrievalResult) :
    List.Perm (sort_by_score_desc l) l := by
  induction l with
  | nil => rfl
  | cons x xs ih =>
    exact (insert_desc_perm x (sort_by_score_desc xs)).trans (ih.cons x)

theorem insert_desc_sorted (r : RetrievalResult) (l : List RetrievalResult)
    (h : l.Pairwise (fun a b => b.score ≤ a.score)) :
    (insert_desc r l).Pairwise (fun a b => b.score ≤ a.score) := by
  induction l with
  | nil => simp [insert_desc]
  | cons x xs ih =>
    rw [insert_desc]
    rcases List.pairwise_cons.mp h with ⟨hx, hxs⟩
    split
    · rename_i hle
      refine List.pairwise_cons.mpr ⟨?_, h⟩
      intro y hy
      rcases List.mem_cons.mp hy with rfl | hy
      · exact hle
      · exact le_trans (hx y hy) hle
    · rename_i hgt
      refine List.pairwise_cons.mpr ⟨?_, ih hxs⟩
      intro y hy
      rcases List.mem_cons.mp ((insert_desc_perm r xs).mem_iff.mp hy) with rfl | hy
      · exact le_of_not_le hgt
      · exact hx y hy

theorem sort_by_score_desc_sorted (l : List RetrievalResult) :
    (sort_by_score_desc l).Pairwise (fun a b => b.score ≤ a.score) := by
  induction l with
  | nil => simp [sort_by_score_desc]
  | cons x xs ih => exact insert_desc_sorted x (sort_by_score_desc xs) ih

/-- Invariant of the seen dictionary after processing a prefix of the
results: keys are distinct, each stored value comes from the processed
results, carries its own 100-character prefix as key, and has the maximal
score among processed results with that prefix; and every processed result
has an entry under its prefix. -/
def SeenInv (processed : List RetrievalResult)
    (seen : List (Str × RetrievalResult)) : Prop :=
  seen.Pairwise (fun p q => p.1 ≠ q.1) ∧
  (∀ p ∈ seen, p.2 ∈ processed ∧ text_id p.2 = p.1 ∧
    ∀ s ∈ processed, text_id s = p.1 → s.score ≤ p.2.score) ∧
  (∀ s ∈ processed, ∃ p ∈ seen, p.1 = text_id s)

theorem alist_get_eq_none_iff (seen : List (Str × RetrievalResult)) (k : Str) :
    alist_get seen k = none ↔ ∀ p ∈ seen, p.1 ≠ k := by
  induction seen with
  | nil =>
    constructor
    · intro _ p hp
      exact absurd hp (List.not_mem_nil p)
    · intro _
      rfl
  | cons p rest ih =>
    cases p with
    | mk k1 v1 =>
      by_cases hk : k1 = k
      · constructor
        · intro h
          rw [alist_get, if_pos hk] at h
          cases h
        · intro h
          exact absurd hk (h (k1, v1) (List.mem_cons_self _ _))
      · rw [alist_get, if_neg hk, ih]
        constructor
        · intro h q hq
          rcases List.mem_cons.mp hq with rfl | hq
          · exact hk
          · exact h q hq
        · intro h q hq
          exact h q (List.mem_cons_of_mem _ hq)

theorem alist_set_of_get_none (k : Str) (v : RetrievalResult)
    (seen : List (Str × RetrievalResult)) (h : alist_get seen k = none) :
    alist_set k v seen = seen ++ [(k, v)] := by
  induction seen with
  | nil => rfl
  | cons p rest ih =>
    have hk : p.1 ≠ k := (alist_get_eq_none_iff _ k).mp h p (List.mem_cons_self p rest)
    have hrest : alist_get rest k = none := by
      rw [alist_get_eq_none_iff] at h ⊢
      intro q hq
      exact h q (List.mem_cons_of_mem p hq)
    cases p with
    | mk k1 v1 =>
      simp only [alist_set, if_neg hk, ih hrest, List.cons_append]

theorem alist_get_some_mem (seen : List (Str × RetrievalResult)) (k : Str)
    (cur : RetrievalResult) (h : alist_get seen k = some cur) : (k, cur) ∈ seen := by
  induction seen with
  | nil => simp [alist_get] at h
  | cons p rest ih =>
    cases p with
    | mk k1 v1 =>
      by_cases hk : k1 = k
      · rw [alist_get, if_pos hk] at h
        cases h
        subst hk
        exact List.mem_cons_self _ _
      · rw [alist_get, if_neg hk] at h
        exact List.mem_cons_of_mem _ (ih h)

theorem alist_get_cons (p : Str × RetrievalResult)
    (rest : List (Str × RetrievalResult)) (k : Str) (hk : p.1 ≠ k) :
    alist_get (p :: rest) k = alist_get rest k := by
  cases p with
  | mk k1 v1 => exact if_neg hk

theorem alist_set_mem_iff (k : Str) (v cur : RetrievalResult)
    (seen : List (Str × RetrievalResult))
    (hdist : seen.Pairwise (fun p q => p.1 ≠ q.1))
    (hget : alist_get seen k = some cur) (q : Str × RetrievalResult) :
    q ∈ alist_set k v seen ↔ (q = (k, v) ∨ (q ∈ seen ∧ q.1 ≠ k)) := by
  induction seen with
  | nil => simp [alist_get] at hget
  | cons p rest ih =>
    rcases List.pairwise_cons.mp hdist with ⟨hhead, htail⟩
    cases p with
    | mk k1 v1 =>
      by_cases hk : k1 = k
      · subst hk
        rw [alist_set, if_pos rfl]
        constructor
        · intro hq
          rcases List.mem_cons.mp hq with rfl | hq
          · exact Or.inl rfl
          · refine Or.inr ⟨List.mem_cons_of_mem _ hq, ?_⟩
            exact (hhead q hq).symm
        · intro hq
          rcases hq with rfl | ⟨hq, hne⟩
          · exact List.mem_cons_self _ _
          · rcases List.mem_cons.mp hq with rfl | hq
            · exact absurd rfl hne
            · exact List.mem_cons_of_mem _ hq
      · rw [alist_set, if_neg hk]
        have hget2 : alist_get rest k = some cur := by
          rw [← alist_get_cons (k1, v1) rest k hk]; exact hget
        constructor
        · intro hq
          rcases List.mem_cons.mp hq with rfl | hq
          · exact Or.inr ⟨List.mem_cons_self _ _, hk⟩
          · rcases (ih htail hget2).mp hq with rfl | ⟨hq, hne⟩
            · exact Or.inl rfl
            · exact Or.inr ⟨List.mem_cons_of_mem _ hq, hne⟩
        · intro hq
          rcases hq with rfl | ⟨hq, hne⟩
          · exact List.mem_cons_of_mem _ ((ih htail hget2).mpr (Or.inl rfl))
          · rcases List.mem_cons.mp hq with rfl | hq
            · exact List.mem_cons_self _ _
            · exact List.mem_cons_of_mem _ ((ih htail hget2).mpr (Or.inr ⟨hq, hne⟩))

theorem alist_set_pairwise (k : Str) (v cur : RetrievalResult)
    (seen : List (Str × RetrievalResult))
    (hdist : seen.Pairwise (fun p q => p.1 ≠ q.1))
    (hget : alist_get seen k = some cur) :
    (alist_set k v seen).Pairwise (fun p q => p.1 ≠ q.1) := by
  induction seen with
  | nil => simp [alist_get] at hget
  | cons p rest ih =>
    rcases List.pairwise_cons.mp hdist with ⟨hhead, htail⟩
    cases p with
    | mk k1 v1 =>
      by_cases hk : k1 = k
      · subst hk
        rw [alist_set, if_pos rfl]
        exact List.pairwise_cons.mpr ⟨hhead, htail⟩
      · rw [alist_set, if_neg hk]
        have hget2 : alist_get rest k = some cur := by
          rw [← alist_get_cons (k1, v1) rest k hk]; exact hget
        refine List.pairwise_cons.mpr ⟨?_, ih htail hget2⟩
        intro q hq
        rcases (alist_set_mem_iff k v cur rest htail hget2 q).mp hq with rfl | ⟨hq, _⟩
        · exact hk
        · exact hhead q hq

theorem alist_get_some_unique (seen : List (Str × RetrievalResult)) (k : Str)
    (cur : RetrievalResult)
    (hdist : seen.Pairwise (fun p q => p.1 ≠ q.1))
    (hget : alist_get seen k = some cur) :
    ∀ p ∈ seen, p.1 = k → p = (k, cur) := by
  intro p hp hpk
  have hmem := alist_get_some_mem seen k cur hget
  by_cases he : p = (k, cur)
  · exact he
  · have hsymm : Symmetric (fun p q : Str × RetrievalResult => p.1 ≠ q.1) :=
      fun _ _ h => Ne.symm h
    have := (hdist.forall hsymm) hp hmem he
    exact absurd hpk this

theorem seen_step_inv (processed : List RetrievalResult)
    (seen : List (Str × RetrievalResult)) (r : RetrievalResult)
    (h : SeenInv processed seen) : SeenInv (processed ++ [r]) (seen_step seen r) := by
  obtain ⟨hdist, hval, hcover⟩ := h
  cases halist : alist_get seen (text_id r) with
  | none =>
    have hstep : seen_step seen r = seen ++ [(text_id r, r)] := by
      simp only [seen_step, halist]
      exact alist_set_of_get_none _ _ _ halist
    rw [hstep]
    have hknot : ∀ p ∈ seen, p.1 ≠ text_id r := (alist_get_eq_none_iff _ _).mp halist
    refine ⟨?_, ?_, ?_⟩
    · rw [List.pairwise_append]
      refine ⟨hdist, List.pairwise_singleton _ _, ?_⟩
      intro p hp q hq
      rw [List.mem_singleton] at hq
      subst hq
      exact hknot p hp
    · intro p hp
      rcases List.mem_append.mp hp with hp | hp
      · obtain ⟨hmem, hid, hmax⟩ := hval p hp
        refine ⟨List.mem_append_left _ hmem, hid, ?_⟩
        intro s hs hsid
        rcases List.mem_append.mp hs with hs | hs
        · exact hmax s hs hsid
        · rw [List.mem_singleton] at hs
          rw [hs] at hsid
          exact absurd hsid (Ne.symm (hknot p hp))
      · rw [List.mem_singleton] at hp
        rw [hp]
        refine ⟨List.mem_append_right _ (List.mem_singleton_self r), rfl, ?_⟩
        intro s hs hsid
        rcases List.mem_append.mp hs with hs | hs
        · obtain ⟨q, hq, hqid⟩ := hcover s hs
          exact absurd (hqid.trans hsid) (hknot q hq)
        · rw [List.mem_singleton] at hs
          rw [hs]
    · intro s hs
      rcases List.mem_append.mp hs with hs | hs
      · obtain ⟨p, hp, hpid⟩ := hcover s hs
        exact ⟨p, List.mem_append_left _ hp, hpid⟩
      · rw [List.mem_singleton] at hs
        exact ⟨(text_id r, r), List.mem_append_right _ (List.mem_singleton_self _),
          by rw [hs]⟩
  | some cur =>
    have hcurmem := alist_get_some_mem seen (text_id r) cur halist
    obtain ⟨hcur_proc, hcur_id, hcur_max⟩ := hval _ hcurmem
    by_cases hscore : r.score > cur.score
    · have hstep : seen_step seen r = alist_set (text_id r) r seen := by
        simp only [seen_step, halist]
        rw [if_pos hscore]
      rw [hstep]
      refine ⟨alist_set_pairwise _ _ cur _ hdist halist, ?_, ?_⟩
      · intro p hp
        rcases (alist_set_mem_iff _ _ cur _ hdist halist p).mp hp with hp2 | ⟨hp2, hne⟩
        · rw [hp2]
          refine ⟨List.mem_append_right _ (List.mem_singleton_self r), rfl, ?_⟩
          intro s hs hsid
          rcases List.mem_append.mp hs with hs | hs
          · exact le_trans (hcur_max s hs hsid) (le_of_lt hscore)
          · rw [List.mem_singleton] at hs
            rw [hs]
        · obtain ⟨hmem, hid, hmax⟩ := hval p hp2
          refine ⟨List.mem_append_left _ hmem, hid, ?_⟩
          intro s hs hsid
          rcases List.mem_append.mp hs with hs | hs
          · exact hmax s hs hsid
          · rw [List.mem_singleton] at hs
            rw [hs] at hsid
            exact absurd hsid.symm hne
      · intro s hs
        rcases List.mem_append.mp hs with hs | hs
        · obtain ⟨p, hp, hpid⟩ := hcover s hs
          by_cases hpk : p.1 = text_id r
          · exact ⟨(text_id r, r),
              (alist_set_mem_iff _ _ cur _ hdist halist _).mpr (Or.inl rfl),
              hpk ▸ hpid⟩
          · exact ⟨p, (alist_set_mem_iff _ _ cur _ hdist halist p).mpr
              (Or.inr ⟨hp, hpk⟩), hpid⟩
        · rw [List.mem_singleton] at hs
          exact ⟨(text_id r, r),
            (alist_set_mem_iff _ _ cur _ hdist halist _).mpr (Or.inl rfl),
            by rw [hs]⟩
    · have hstep : seen_step seen r = seen := by
        simp only [seen_step, halist]
        rw [if_neg hscore]
      rw [hstep]
      refine ⟨hdist, ?_, ?_⟩
      · intro p hp
        obtain ⟨hmem, hid, hmax⟩ := hval p hp
        refine ⟨List.mem_append_left _ hmem, hid, ?_⟩
        intro s hs hsid
        rcases List.mem_append.mp hs with hs | hs
        · exact hmax s hs hsid
        · rw [List.mem_singleton] at hs
          rw [hs] at hsid
          have hpk : p = (text_id r, cur) :=
            alist_get_some_unique seen _ cur hdist halist p hp hsid.symm
          rw [hs, hpk]
          exact le_of_not_lt hscore
      · intro s hs
        rcases List.mem_append.mp hs with hs | hs
        · exact hcover s hs
        · rw [List.mem_singleton] at hs
          exact ⟨(text_id r, cur), hcurmem, by rw [hs]⟩

theorem fold_seen_inv (rs : List RetrievalResult) :
    ∀ processed seen, SeenInv processed seen →
      SeenInv (processed ++ rs) (rs.foldl seen_step seen) := by
  induction rs with
  | nil =>
    intro processed seen h
    simpa using h
  | cons r rs ih =>
    intro processed seen h
    have h2 := ih (processed ++ [r]) (seen_step seen r) (seen_step_inv processed seen r h)
    simpa [List.append_assoc] using h2

theorem seen_inv_results (results : List RetrievalResult) :
    SeenInv results (results.foldl seen_step []) := by
  have h0 : SeenInv [] [] := by
    refine ⟨List.Pairwise.nil, ?_, ?_⟩
    · intro p hp
      exact absurd hp (List.not_mem_nil p)
    · intro s hs
      exact absurd hs (List.not_mem_nil s)
  simpa using fold_seen_inv results [] [] h0

/-- C9: deduplication collapses results sharing their 100-character text
prefix into a single result with the maximal similarity score for that
prefix, keeps only input results, and sorts the output by descending
score. -/
theorem dedup_by_prefix (results : List RetrievalResult) :
    List.Pairwise (fun a b => b.score ≤ a.score) (deduplicate_results results) ∧
    (∀ r ∈ deduplicate_results results, r ∈ results) ∧
    List.Pairwise (fun a b => text_id a ≠ text_id b) (deduplicate_results results) ∧
    (∀ r ∈ results, ∃ q ∈ deduplicate_results results, text_id q = text_id r ∧
      ∀ s ∈ results, text_id s = text_id r → s.score ≤ q.score) := by
  obtain ⟨hdist, hval, hcover⟩ := seen_inv_results results
  have hperm := sort_by_score_desc_perm ((results.foldl seen_step []).map Prod.snd)
  refine ⟨sort_by_score_desc_sorted _, ?_, ?_, ?_⟩
  · intro r hr
    have hr2 := hperm.mem_iff.mp hr
    obtain ⟨p, hp, hpr⟩ := List.mem_map.mp hr2
    exact hpr ▸ (hval p hp).1
  · have hmap : ((results.foldl seen_step []).map Prod.snd).Pairwise
        (fun a b => text_id a ≠ text_id b) := by
      rw [List.pairwise_map]
      refine hdist.imp_of_mem ?_
      intro p q hp hq hne
      rw [(hval p hp).2.1, (hval q hq).2.1]
      exact hne
    have hsymm : ∀ {a b : RetrievalResult},
        text_id a ≠ text_id b → text_id b ≠ text_id a := fun h => Ne.symm h
    exact (hperm.pairwise_iff hsymm).mpr hmap
  · intro r hr
    obtain ⟨p, hp, hpk⟩ := hcover r hr
    refine ⟨p.2, hperm.mem_iff.mpr (List.mem_map.mpr ⟨p, hp, rfl⟩), ?_, ?_⟩
    · exact (hval p hp).2.1.trans hpk
    · intro s hs hsid
      exact (hval p hp).2.2 s hs (hsid.trans hpk.symm)

/-- Witness for dedup_by_prefix: two results with the same text (hence the
same 100-character prefix) and scores 0.4 and 0.9 collapse to an entry whose
score dominates both. -/
theorem dedup_by_prefix_witness :
    ∃ q ∈ deduplicate_results
        [{ text := ['a'], score := 0.4, file_name := [] },
         { text := ['a'], score := 0.9, file_name := [] }],
      text_id q = text_id { text := ['a'], score := 0.9, file_name := [] } ∧
      ∀ s ∈ [({ text := ['a'], score := 0.4, file_name := [] } : RetrievalResult),
             { text := ['a'], score := 0.9, file_name := [] }],
        text_id s = text_id { text := ['a'], score := 0.9, file_name := [] } →
          s.score ≤ q.score :=
  ( dedup_by_prefix _).2.2.2 _ (by simp)

end Dedup

namespace Tables

/-! ## Markdown table repair (llama_agent_flow._fix_malformed_tables lines
423-495 and _merge_table_cells lines 497-556) -/

/-- Python str.split(c) for a single-character separator, keeping empty
pieces. -/
def split_char (sep : Char) : Str → List Str
  | [] => [[]]
  | c :: rest =>
    if c = sep then [] :: split_char sep rest
    else
      match split_char sep rest with
      | [] => [[c]]
      | piece :: pieces => (c :: piece) :: pieces

/-- Does the stripped line start with a pipe. -/
def starts_with_pipe : Str → Bool
  | '|' :: _ => true
  | _ => false

/-- Does the stripped line end with a pipe. -/
def ends_with_pipe (s : Str) : Bool :=
  match s.getLast? with
  | some '|' => true
  | _ => false

/-- Table-row test used by _fix_malformed_tables (line 434): the line
contains a pipe and its stripped form starts or ends with one. -/
def is_table_row_line (line : Str) : Bool :=
  py_in ['|'] line && (starts_with_pipe (py_strip line) || ends_with_pipe (py_strip line))

/-- Separator test used by _fix_malformed_tables (line 435): the separator
regex on the stripped line, or a run of three dashes anywhere. -/
def is_separator_line (line : Str) : Bool :=
  matches_sep_pattern (py_strip line) || py_in ['-', '-', '-'] (py_strip line)

/-- Cells of a table line as in the malformed-table check (line 450): split
on pipes, strip each part, keep the non-empty ones. -/
def line_cells (line : Str) : List Str :=
  ((split_char '|' line).map py_strip).filter (fun c => c ≠ [])

/-- Malformed-line test, lines 448-455: more than five cells of which more
than half are single characters. -/
def is_malformed_line (line : Str) : Bool :=
  if py_in ['|'] line then
    let cells := line_cells line
    let single_char_cells := (cells.filter (fun c => c.length = 1)).length
    decide (5 < cells.length) && decide (cells.length < 2 * single_char_cells)
  else false

/-- Malformed-table check: some line of the table triggers the
malformed-line test. -/
def table_is_malformed (table_lines : List Str) : Bool :=
  table_lines.any is_malformed_line

/-- Drop the leading split piece when it strips to nothing
(_merge_table_cells lines 516-517). -/
def drop_empty_first : List Str → List Str
  | [] => []
  | p :: rest => if py_strip p = [] then rest else p :: rest

/-- Drop the trailing split piece when it strips to nothing
(_merge_table_cells lines 518-519). -/
def drop_empty_last (parts : List Str) : List Str :=
  match parts.getLast? with
  | some p => if py_strip p = [] then parts.dropLast else parts
  | none => parts

/-- Cell-merging loop of _merge_table_cells, lines 523-540: consecutive
single alphanumeric-character cells accumulate into one word; any other
cell flushes the word and is kept as-is. -/
def merge_cells_go : List Str → Str → List Str
  | [], current_word => if current_word ≠ [] then [current_word] else []
  | cell :: rest, current_word =>
    if cell.length = 1 && cell.all Char.isAlphanum then
      merge_cells_go rest (current_word ++ cell)
    else
      (if current_word ≠ [] then [current_word] else []) ++
        (if cell ≠ [] then [cell] else []) ++ merge_cells_go rest []

/-- Merge one data line of a malformed table into a normalised row, lines
509-545; returns none for lines without pipes or with no cells left. -/
def merge_table_line (line : Str) : Option Str :=
  if !(py_in ['|'] line) then none
  else
    let parts := drop_empty_last (drop_empty_first (split_char '|' line))
    let cells := (parts.map py_strip).filter (fun p => p ≠ [])
    let merged_cells := merge_cells_go cells []
    if merged_cells = [] then none
    else some (['|', ' '] ++ List.intercalate [' ', '|', ' '] merged_cells ++ [' ', '|'])

/-- The non-empty stripped pieces of a row split on pipes, as used for the
column count of the regenerated separator (lines 552-553). -/
def row_pieces (row : Str) : List Str :=
  (split_char '|' row).filter (fun c => py_strip c ≠ [])

/-- _merge_table_cells, lines 497-556: drop separator rows, merge the cells
of each remaining line, and regenerate a separator row after the header; a
table with no data lines or no merged rows repairs to none. -/
def merge_table_cells (table_lines : List Str) : Option (List Str) :=
  let data_lines := table_lines.filter
    (fun line => !(matches_sep_pattern (py_strip line)))
  if data_lines = [] then none
  else
    let merged_rows := data_lines.filterMap merge_table_line
    match merged_rows with
    | [] => none
    | first :: rest =>
      let separator : Str :=
        ['|'] ++ List.intercalate ['|']
          ((row_pieces first).map
            (fun c => List.replicate (max 3 ((py_strip c).length + 2)) '-')) ++ ['|']
      some (first :: separator :: rest)

/-- Flush of a finished table in _fix_malformed_tables: a malformed table is
replaced by its repair, or removed when repair fails; a well-formed table is
kept as-is. -/
def flush_table (table_lines : List Str) : List Str :=
  if table_is_malformed table_lines then
    match merge_table_cells table_lines with
    | some fixed => fixed
    | none => []
  else table_lines

/-- Line loop of _fix_malformed_tables, lines 432-493, over the remaining
lines with the in-table state and the accumulated table lines. -/
def fix_malformed_go : List Str → Bool → List Str → List Str
  | [], in_table, table_lines =>
    if in_table && table_lines ≠ [] then flush_table table_lines else []
  | line :: rest, in_table, table_lines =>
    if is_table_row_line line || is_separator_line line then
      fix_malformed_go rest true (if in_table then table_lines ++ [line] else [line])
    else if in_table then
      flush_table table_lines ++ [line] ++ fix_malformed_go rest false []
    else
      line :: fix_malformed_go rest false table_lines

/-- _fix_malformed_tables, lines 423-495: split into lines, repair or drop
malformed tables, and rejoin. -/
def fix_malformed_tables (content : Str) : Str :=
  List.intercalate ['\n'] (fix_malformed_go (split_char '\n' content) false [])

theorem py_strip_of_no_space (s : Str) (h : ∀ c ∈ s, py_is_space c = false) :
    py_strip s = s := by
  rw [py_strip]
  have h1 : s.dropWhile py_is_space = s := by
    cases s with
    | nil => rfl
    | cons c rest =>
      rw [List.dropWhile_cons, h c (List.mem_cons_self _ _)]
      simp
  rw [h1]
  have h2 : s.reverse.dropWhile py_is_space = s.reverse := by
    cases hs : s.reverse with
    | nil => rfl
    | cons c rest =>
      have hc : c ∈ s := List.mem_reverse.mp (hs ▸ List.mem_cons_self _ _)
      rw [List.dropWhile_cons, h c hc]
      simp
  rw [h2, List.reverse_reverse]

theorem split_char_sepfree (sep : Char) (xs : Str) (h : ∀ c ∈ xs, c ≠ sep) :
    split_char sep xs = [xs] := by
  induction xs with
  | nil => rfl
  | cons c rest ih =>
    rw [split_char, if_neg (h c (List.mem_cons_self _ _))]
    rw [ih (fun d hd => h d (List.mem_cons_of_mem _ hd))]

theorem split_char_append (sep : Char) (xs ys : Str) (h : ∀ c ∈ xs, c ≠ sep) :
    split_char sep (xs ++ sep :: ys) = xs :: split_char sep ys := by
  induction xs with
  | nil =>
    rw [List.nil_append, split_char, if_pos rfl]
  | cons c rest ih =>
    rw [List.cons_append, split_char, if_neg (h c (List.mem_cons_self _ _)),
      ih (fun d hd => h d (List.mem_cons_of_mem _ hd))]

theorem intercalate_cons₂ (sep : Str) (a b : Str) (t : List Str) :
    List.intercalate sep (a :: b :: t) = a ++ sep ++ List.intercalate sep (b :: t) := by
  simp [List.intercalate, List.intersperse]

theorem split_char_intercalate (sep : Char) (groups : List Str)
    (h : ∀ g ∈ groups, ∀ c ∈ g, c ≠ sep) (hne : groups ≠ []) :
    split_char sep (List.intercalate [sep] groups ++ [sep]) = groups ++ [[]] := by
  induction groups with
  | nil => exact absurd rfl hne
  | cons g rest ih =>
    cases rest with
    | nil =>
      have h0 : List.intercalate [sep] [g] ++ [sep] = g ++ sep :: [] := by
        simp [List.intercalate]
      rw [h0, split_char_append sep g [] (h g (List.mem_cons_self _ _))]
      rfl
    | cons g2 rest2 =>
      rw [intercalate_cons₂]
      have hg : ∀ c ∈ g, c ≠ sep := h g (List.mem_cons_self _ _)
      have h2 : ∀ g0 ∈ g2 :: rest2, ∀ c ∈ g0, c ≠ sep :=
        fun g0 hg0 => h g0 (List.mem_cons_of_mem _ hg0)
      have := ih h2 (List.cons_ne_nil g2 rest2)
      calc split_char sep (g ++ [sep] ++ List.intercalate [sep] (g2 :: rest2) ++ [sep])
          = split_char sep (g ++ sep :: (List.intercalate [sep] (g2 :: rest2) ++ [sep])) := by
            simp
        _ = g :: split_char sep (List.intercalate [sep] (g2 :: rest2) ++ [sep]) :=
            split_char_append sep g _ hg
        _ = g :: ((g2 :: rest2) ++ [[]]) := by rw [this]
        _ = (g :: g2 :: rest2) ++ [[]] := rfl

theorem row_pieces_separator (groups : List Str)
    (hpipe : ∀ g ∈ groups, ∀ c ∈ g, c ≠ '|')
    (hstrip : ∀ g ∈ groups, py_strip g ≠ []) :
    row_pieces (['|'] ++ List.intercalate ['|'] groups ++ ['|']) = groups := by
  rw [row_pieces]
  have hsplit0 : (['|'] ++ List.intercalate ['|'] groups ++ ['|'] : Str)
      = '|' :: (List.intercalate ['|'] groups ++ ['|']) := by simp
  rw [hsplit0]
  have hhead : split_char '|' ('|' :: (List.intercalate ['|'] groups ++ ['|']))
      = [] :: split_char '|' (List.intercalate ['|'] groups ++ ['|']) := by
    rw [split_char, if_pos rfl]
  rw [hhead]
  cases hg : groups with
  | nil =>
    subst hg
    decide
  | cons g rest =>
    rw [← hg]
    rw [split_char_intercalate '|' groups hpipe (hg ▸ List.cons_ne_nil g rest)]
    have h1 : groups.filter (fun c => decide (py_strip c ≠ [])) = groups :=
      List.filter_eq_self.mpr (fun g0 hg0 => by simpa using hstrip g0 hg0)
    rw [List.filter_cons, if_neg (by decide)]
    rw [List.filter_append, h1]
    have h2 : List.filter (fun c : Str => decide (py_strip c ≠ [])) [[]] = [] := by decide
    rw [h2, List.append_nil]

theorem merge_cells_go_preserves : ∀ (cells : List Str) (cur : Str) (c : Str),
    c ∈ cells →
    ¬ (c.length = 1 ∧ c.all Char.isAlphanum = true) → c ≠ [] →
    c ∈ merge_cells_go cells cur := by
  intro cells
  induction cells with
  | nil =>
    intro cur c hc _ _
    exact absurd hc (List.not_mem_nil c)
  | cons x rest ih =>
    intro cur c hc hnot hne
    rw [merge_cells_go]
    by_cases hx : (decide (x.length = 1) && x.all Char.isAlphanum) = true
    · rw [if_pos hx]
      rcases List.mem_cons.mp hc with rfl | hc2
      · obtain ⟨hl, hr⟩ := Bool.and_eq_true_iff.mp hx
        exact absurd ⟨of_decide_eq_true hl, hr⟩ hnot
      · exact ih (cur ++ x) c hc2 hnot hne
    · rw [if_neg hx]
      rcases List.mem_cons.mp hc with rfl | hc2
      · refine List.mem_append_left _ (List.mem_append_right _ ?_)
        rw [if_pos hne]
        exact List.mem_singleton_self c
      · exact List.mem_append_right _ (ih [] c hc2 hnot hne)

/-- C3 counterexample: on a header row whose cells spell D,o,s,e,R,e,s the
repair produces the single merged cell DoseRes, not the two cells Dose and
Res that the claim states. -/
theorem malformed_repair_counterexample :
    merge_table_cells
        ["| D | o | s | e | R | e | s |".toList,
         "|---|---|---|---|---|---|---|".toList,
         "| 10 mg | strong |".toList]
      = some ["| DoseRes |".toList, "|---------|".toList,
              "| 10 mg | strong |".toList] ∧
    line_cells "| DoseRes |".toList = ["DoseRes".toList] ∧
    ["DoseRes".toList] ≠ ["Dose".toList, "Res".toList] := by
  refine ⟨by decide, by decide, by decide⟩

/-- C3 amended: consecutive single alphanumeric-character cells merge into a
single word cell (so D,o,s,e,R,e,s becomes DoseRes); the repaired table gets
a separator row with exactly as many columns as the merged header;
multi-character (and non-alphanumeric) cells are preserved by the merge; and
a malformed table whose repair yields no usable rows is dropped from the
output. -/
theorem malformed_repair_amended :
    fix_malformed_tables
        ("Intro text\n| D | o | s | e | R | e | s |\n|---|---|---|---|---|---|---|\n| 10 mg | strong |\nAfter text").toList
      = ("Intro text\n| DoseRes |\n|---------|\n| 10 mg | strong |\nAfter text").toList ∧
    fix_malformed_tables ("text\n| - | - | - | - | - | - |\nmore text").toList
      = ("text\nmore text").toList ∧
    (∀ table_lines out, merge_table_cells table_lines = some out →
      ∃ first sep rest, out = first :: sep :: rest ∧
        (row_pieces sep).length = (row_pieces first).length) ∧
    (∀ cells cur c, c ∈ cells →
      ¬ (c.length = 1 ∧ c.all Char.isAlphanum = true) → c ≠ [] →
        c ∈ merge_cells_go cells cur) := by
  refine ⟨by decide, by decide, ?_, ?_⟩
  · intro table_lines out h
    simp only [merge_table_cells] at h
    by_cases hdl : table_lines.filter
        (fun line => !(matches_sep_pattern (py_strip line))) = []
    · rw [if_pos hdl] at h
      cases h
    · rw [if_neg hdl] at h
      cases hmr : (table_lines.filter
          (fun line => !(matches_sep_pattern (py_strip line)))).filterMap
            merge_table_line with
      | nil => rw [hmr] at h; cases h
      | cons first rest =>
        rw [hmr] at h
        injection h with h
        refine ⟨first, _, rest, h.symm, ?_⟩
        have hpipe : ∀ g ∈ (row_pieces first).map
            (fun c => List.replicate (max 3 ((py_strip c).length + 2)) '-'),
              ∀ c ∈ g, c ≠ '|' := by
          intro g hg c hc
          obtain ⟨p, _, hp⟩ := List.mem_map.mp hg
          rw [← hp] at hc
          have := List.eq_of_mem_replicate hc
          rw [this]
          intro hcontra
          cases hcontra
        have hstrip : ∀ g ∈ (row_pieces first).map
            (fun c => List.replicate (max 3 ((py_strip c).length + 2)) '-'),
              py_strip g ≠ [] := by
          intro g hg
          obtain ⟨p, _, hp⟩ := List.mem_map.mp hg
          rw [← hp]
          rw [py_strip_of_no_space]
          · apply List.ne_nil_of_length_pos
            rw [List.length_replicate]
            omega
          · intro c hc
            rw [List.eq_of_mem_replicate hc]
            rfl
        rw [row_pieces_separator _ hpipe hstrip, List.length_map]
  · exact fun cells cur c hc hnot hne => merge_cells_go_preserves cells cur c hc hnot hne

/-- Witness for the amended C3 theorem: instantiates the separator-shape
part on the concrete repaired table and the preservation part on a concrete
multi-character cell. -/
theorem malformed_repair_amended_witness :
    (∃ first sep rest,
      (["| DoseRes |".toList, "|---------|".toList,
        "| 10 mg | strong |".toList] : List Str) = first :: sep :: rest ∧
      (row_pieces sep).length = (row_pieces first).length) ∧
    "10 mg".toList ∈ merge_cells_go ["10 mg".toList, "strong".toList] [] := by
  constructor
  · exact (malformed_repair_amended.2.2.1)
      ["| D | o | s | e | R | e | s |".toList,
       "|---|---|---|---|---|---|---|".toList,
       "| 10 mg | strong |".toList] _ (by decide)
  · exact (malformed_repair_amended.2.2.2)
      ["10 mg".toList, "strong".toList] [] "10 mg".toList
      (by decide) (by decide) (by decide)

end Tables

namespace Enforce

/-! ## Template table-count enforcement
(llama_agent_flow._enforce_template_table_count, lines 689-771) -/

/-- Separator test of the enforcement scan (line 706): a dash or equals run
anywhere, or the separator regex. -/
def is_enforce_separator (line : Str) : Bool :=
  py_in ['-', '-', '-'] line || py_in ['=', '=', '='] line ||
    matches_sep_pattern (py_strip line)

/-- Table scan of _enforce_template_table_count, lines 703-722: group the
enumerated lines into maximal runs of table-row or separator lines, each
kept with its line index. -/
def find_tables_go : List (Nat × Str) → Bool → List (Nat × Str) →
    List (List (Nat × Str))
  | [], _, current_table => if current_table ≠ [] then [current_table] else []
  | (i, line) :: rest, in_table, current_table =>
    if Tables.is_table_row_line line || is_enforce_separator line then
      find_tables_go rest true
        ((if in_table then current_table else []) ++ [(i, line)])
    else if in_table then
      (if current_table ≠ [] then [current_table] else []) ++
        find_tables_go rest false []
    else
      find_tables_go rest false current_table

/-- Lowercased set of a template table's headers (line 734), modelled as a
deduplicated list. -/
def template_header_set (headers : List Str) : List Str :=
  ((headers.filter (fun h => h ≠ [])).map py_lower).dedup

/-- Candidate test of the inner line loop (line 742): a line carrying a pipe
and no dash or equals run. -/
def is_candidate_line (line : Str) : Bool :=
  py_in ['|'] line &&
    !(py_in ['-', '-', '-'] line) && !(py_in ['=', '=', '='] line)

/-- Header-overlap ratio of a candidate line against a template header set
(lines 743-745): shared lowered header tokens over the template header
count. -/
def header_overlap (template_headers : List Str) (line : Str) : ℚ :=
  let found_headers :=
    ((((Tables.split_char '|' line).map py_strip).filter
      (fun h => h ≠ [])).map py_lower).dedup
  ((found_headers.filter (fun h => h ∈ template_headers)).length : ℚ) /
    (max template_headers.length 1 : ℚ)

/-- Number of found header tokens shared with the template header set
(numerator of the overlap ratio, line 745). -/
def shared_header_count (template_headers : List Str) (line : Str) : Nat :=
  (((((Tables.split_char '|' line).map py_strip).filter
    (fun h => h ≠ [])).map py_lower).dedup.filter
      (fun h => h ∈ template_headers)).length

/-- The 30% threshold test of line 746, written over integers so that it
evaluates by kernel reduction; overlap_exceeds_iff proves it equal to
comparing the rational overlap ratio with 0.3. -/
def overlap_exceeds (template_headers : List Str) (line : Str) : Bool :=
  3 * max template_headers.length 1 < 10 * shared_header_count template_headers line

theorem header_overlap_eq (template_headers : List Str) (line : Str) :
    header_overlap template_headers line =
      (shared_header_count template_headers line : ℚ) /
        (max template_headers.length 1 : ℚ) := rfl

theorem overlap_exceeds_iff (template_headers : List Str) (line : Str) :
    overlap_exceeds template_headers line = true ↔
      header_overlap template_headers line > 0.3 := by
  rw [overlap_exceeds, header_overlap_eq, gt_iff_lt, decide_eq_true_eq]
  have hb : (0 : ℚ) < max (template_headers.length : ℚ) 1 :=
    lt_max_of_lt_right zero_lt_one
  rw [show (0.3 : ℚ) = 3 / 10 by norm_num, div_lt_div_iff₀ (by norm_num) hb]
  constructor
  · intro h
    have h2 : ((3 * max template_headers.length 1 : Nat) : ℚ)
        < ((10 * shared_header_count template_headers line : Nat) : ℚ) := by
      exact_mod_cast h
    push_cast at h2
    linarith
  · intro h
    have h2 : (3 : ℚ) * max (template_headers.length : ℚ) 1
        < 10 * (shared_header_count template_headers line : ℚ) := by linarith
    exact_mod_cast h2

/-- The inner line loop of lines 741-749: the break at line 749 fires only
on success, so the loop tries every candidate line of the found table until
one clears the 30% overlap threshold; the table matches exactly when some
candidate line does. -/
def table_matches (template_headers : List Str)
    (found_table : List (Nat × Str)) : Bool :=
  (found_table.map Prod.snd).any
    (fun line => is_candidate_line line &&
      overlap_exceeds template_headers line)

/-- Scan of the found tables for one template table (lines 736-752): skip
already-kept indices, and keep the first table any of whose candidate lines
clears the 30% overlap threshold. -/
def match_step (template_headers : List Str) :
    List (Nat × List (Nat × Str)) → List Nat → Option Nat
  | [], _ => none
  | (idx, found_table) :: rest, kept =>
    if idx ∈ kept then match_step template_headers rest kept
    else if table_matches template_headers found_table then some idx
    else match_step template_headers rest kept

/-- Template-matching phase (lines 732-752): one pass per template table,
accumulating kept indices. -/
def match_templates (template_tables : List (List Str))
    (enum_found : List (Nat × List (Nat × Str))) : List Nat :=
  template_tables.foldl
    (fun kept headers =>
      match match_step (template_header_set headers) enum_found kept with
      | some idx => kept ++ [idx]
      | none => kept)
    []

/-- Top-up phase (lines 754-758): add the earliest not-yet-kept tables until
the expected count is reached. -/
def fill_first (n expected_count : Nat) (kept : List Nat) : List Nat :=
  (List.range n).foldl
    (fun kept idx =>
      if idx ∉ kept ∧ kept.length < expected_count then kept ++ [idx] else kept)
    kept

/-- Indices kept after both phases: template matching (lines 732-752) then
top-up with the earliest remaining tables (lines 754-758). -/
def kept_indices (found_tables : List (List (Nat × Str))) (expected_count : Nat)
    (template_tables : List (List Str)) : List Nat :=
  fill_first found_tables.length expected_count
    (match_templates template_tables found_tables.enum)

/-- Line indices of the tables that were not kept (lines 760-765). -/
def lines_to_remove (found_tables : List (List (Nat × Str))) (kept : List Nat) :
    List Nat :=
  (found_tables.enum.filter (fun p => p.1 ∉ kept)).flatMap
    (fun p => p.2.map Prod.fst)

/-- _enforce_template_table_count, lines 689-771: when more tables are found
than the template declares, keep the matched and topped-up tables and delete
every line of the others; otherwise return the content unchanged. -/
def enforce_template_table_count (content : Str) (expected_count : Nat)
    (template_tables : List (List Str)) : Str :=
  let lines := Tables.split_char '\n' content
  let found_tables := find_tables_go lines.enum false []
  if expected_count < found_tables.length then
    List.intercalate ['\n']
      ((lines.enum.filter (fun p =>
        p.1 ∉ lines_to_remove found_tables
          (kept_indices found_tables expected_count template_tables))).map Prod.snd)
  else content

/-- Disjointness of the line-index sets of two found tables. -/
def IdxDisjoint (T1 T2 : List (Nat × Str)) : Prop :=
  ∀ q1 ∈ T1, ∀ q2 ∈ T2, q1.1 ≠ q2.1

theorem find_tables_idx_mem :
    ∀ (rem : List (Nat × Str)) (in_table : Bool) (current : List (Nat × Str)),
    ∀ T ∈ find_tables_go rem in_table current, ∀ q ∈ T,
      q.1 ∈ current.map Prod.fst ++ rem.map Prod.fst := by
  intro rem
  induction rem with
  | nil =>
    intro in_table current T hT q hq
    rw [find_tables_go] at hT
    by_cases hc : current ≠ []
    · rw [if_pos hc] at hT
      rw [List.mem_singleton] at hT
      subst hT
      rw [List.map_nil, List.append_nil]
      exact List.mem_map.mpr ⟨q, hq, rfl⟩
    · rw [if_neg hc] at hT
      exact absurd hT (List.not_mem_nil T)
  | cons hd rest ih =>
    intro in_table current T hT q hq
    obtain ⟨i, line⟩ := hd
    rw [find_tables_go] at hT
    by_cases hrow : (Tables.is_table_row_line line || is_enforce_separator line) = true
    · rw [if_pos hrow] at hT
      have := ih true ((if in_table then current else []) ++ [(i, line)]) T hT q hq
      rcases List.mem_append.mp this with hmem | hmem
      · rw [List.map_append] at hmem
        rcases List.mem_append.mp hmem with hmem | hmem
        · refine List.mem_append_left _ ?_
          by_cases hit : in_table
          · rw [if_pos hit] at hmem
            exact hmem
          · rw [if_neg hit] at hmem
            exact absurd hmem (List.not_mem_nil _)
        · refine List.mem_append_right _ ?_
          simp only [List.map_singleton, List.mem_singleton] at hmem
          simp only [List.map_cons, hmem]
          exact List.mem_cons_self _ _
      · refine List.mem_append_right _ ?_
        simp only [List.map_cons]
        exact List.mem_cons_of_mem _ hmem
    · rw [if_neg hrow] at hT
      by_cases hit : in_table = true
      · rw [if_pos hit] at hT
        rcases List.mem_append.mp hT with hT2 | hT2
        · by_cases hc : current ≠ []
          · rw [if_pos hc] at hT2
            rw [List.mem_singleton] at hT2
            subst hT2
            exact List.mem_append_left _ (List.mem_map.mpr ⟨q, hq, rfl⟩)
          · rw [if_neg hc] at hT2
            exact absurd hT2 (List.not_mem_nil T)
        · have := ih false [] T hT2 q hq
          simp only [List.map_nil, List.nil_append] at this
          refine List.mem_append_right _ ?_
          simp only [List.map_cons]
          exact List.mem_cons_of_mem _ this
      · rw [if_neg hit] at hT
        have := ih false current T hT q hq
        rcases List.mem_append.mp this with hmem | hmem
        · exact List.mem_append_left _ hmem
        · refine List.mem_append_right _ ?_
          simp only [List.map_cons]
          exact List.mem_cons_of_mem _ hmem

theorem find_tables_disjoint :
    ∀ (rem : List (Nat × Str)) (in_table : Bool) (current : List (Nat × Str)),
    List.Pairwise (· < ·) (current.map Prod.fst ++ rem.map Prod.fst) →
    (find_tables_go rem in_table current).Pairwise IdxDisjoint := by
  intro rem
  induction rem with
  | nil =>
    intro in_table current _
    rw [find_tables_go]
    by_cases hc : current ≠ []
    · rw [if_pos hc]
      exact List.pairwise_singleton _ _
    · rw [if_neg hc]
      exact List.Pairwise.nil
  | cons hd rest ih =>
    intro in_table current hpw
    obtain ⟨i, line⟩ := hd
    rw [find_tables_go]
    by_cases hrow : (Tables.is_table_row_line line || is_enforce_separator line) = true
    · rw [if_pos hrow]
      refine ih true ((if in_table then current else []) ++ [(i, line)]) ?_
      by_cases hit : in_table
      · rw [if_pos hit]
        simpa [List.map_append] using hpw
      · rw [if_neg hit]
        simp only [List.nil_append, List.map_cons, List.map_singleton]
        simp only [List.map_cons] at hpw
        exact hpw.sublist (List.sublist_append_right _ _)
    · rw [if_neg hrow]
      have hrest_pw : List.Pairwise (· < ·)
          (([] : List (Nat × Str)).map Prod.fst ++ rest.map Prod.fst) := by
        simp only [List.map_nil, List.nil_append]
        refine hpw.sublist ?_
        simp only [List.map_cons]
        exact List.Sublist.trans (List.sublist_cons_self i (rest.map Prod.fst))
          (List.sublist_append_right (current.map Prod.fst) _)
      by_cases hit : in_table = true
      · rw [if_pos hit]
        rw [List.pairwise_append]
        refine ⟨?_, ih false [] hrest_pw, ?_⟩
        · by_cases hc : current ≠ []
          · rw [if_pos hc]
            exact List.pairwise_singleton _ _
          · rw [if_neg hc]
            exact List.Pairwise.nil
        · intro T1 hT1 T2 hT2 q1 hq1 q2 hq2
          by_cases hc : current ≠ []
          · rw [if_pos hc] at hT1
            rw [List.mem_singleton] at hT1
            have h1 : q1.1 ∈ current.map Prod.fst :=
              List.mem_map.mpr ⟨q1, hT1 ▸ hq1, rfl⟩
            have h2 : q2.1 ∈ rest.map Prod.fst := by
              have := find_tables_idx_mem rest false [] T2 hT2 q2 hq2
              simpa using this
            have := (List.pairwise_append.mp hpw).2.2 q1.1 h1 q2.1
              (by simp only [List.map_cons]; exact List.mem_cons_of_mem _ h2)
            exact Nat.ne_of_lt this
          · rw [if_neg hc] at hT1
            exact absurd hT1 (List.not_mem_nil T1)
      · rw [if_neg hit]
        refine ih false current ?_
        refine hpw.sublist ?_
        simp only [List.map_cons]
        exact List.Sublist.append_left
          (List.sublist_cons_self i (rest.map Prod.fst)) _

theorem found_tables_disjoint_enum (content : Str) :
    (find_tables_go (Tables.split_char '\n' content).enum false []).enum.Pairwise
      (fun a b => a.1 ≠ b.1 → IdxDisjoint a.2 b.2) := by
  have hdisj : (find_tables_go (Tables.split_char '\n' content).enum false
      []).Pairwise IdxDisjoint := by
    refine find_tables_disjoint _ false [] ?_
    rw [List.map_nil, List.nil_append, List.enum_map_fst]
    exact List.pairwise_lt_range _
  have he : (find_tables_go (Tables.split_char '\n' content).enum false
      []).enum.Pairwise (fun a b => IdxDisjoint a.2 b.2) := by
    rw [← List.pairwise_map (f := Prod.snd), List.enum_map_snd]
    exact hdisj
  refine he.imp ?_
  intro a b h _
  exact h

/-- C2 counterexample: with a template declaring one table with headers
Alpha and Beta, the first table (overlap one half) is kept and the
higher-overlap table (overlap one) is deleted, refuting the claim that the
highest-header-overlap tables are kept. -/
theorem table_count_enforcement_counterexample :
    enforce_template_table_count
        ("| Alpha | Gamma |\n|---|---|\n| 1 | 2 |\n\n| Alpha | Beta |\n|---|---|\n| 3 | 4 |").toList
        1 [["Alpha".toList, "Beta".toList]]
      = ("| Alpha | Gamma |\n|---|---|\n| 1 | 2 |\n").toList ∧
    header_overlap (template_header_set ["Alpha".toList, "Beta".toList])
      "| Alpha | Gamma |".toList = 1 / 2 ∧
    header_overlap (template_header_set ["Alpha".toList, "Beta".toList])
      "| Alpha | Beta |".toList = 1 ∧
    py_in "| Alpha | Beta |".toList
      ("| Alpha | Gamma |\n|---|---|\n| 1 | 2 |\n").toList = false ∧
    (1 / 2 : ℚ) < 1 := by
  have hlen : (template_header_set ["Alpha".toList, "Beta".toList]).length = 2 := by
    decide
  refine ⟨by decide, ?_, ?_, by decide, by norm_num⟩
  · rw [header_overlap_eq]
    rw [show shared_header_count (template_header_set ["Alpha".toList, "Beta".toList])
      "| Alpha | Gamma |".toList = 1 from by decide, hlen]
    norm_num
  · rw [header_overlap_eq]
    rw [show shared_header_count (template_header_set ["Alpha".toList, "Beta".toList])
      "| Alpha | Beta |".toList = 2 from by decide, hlen]
    norm_num

/-- C2 amended: in the concrete case of a template declaring one table with
headers Dose and Response and three generated tables of which only one
clears the 30% header overlap, exactly that table is retained and the other
two are removed in full; the matching loop scans every pipe-bearing line of
a table without a dash or equals run, so a table whose header row fails the
threshold but whose data row clears it is kept (second concrete case);
generally, enforcement is the identity when the found-table count does not
exceed the declared count, and each found table is deleted entirely or kept
entirely (its line indices are wholly inside or wholly outside the removed
set): what is kept is the first table (in document order) any of whose
candidate lines clears the threshold per template table, topped up with the
earliest remaining tables, not the highest-overlap ones. -/
theorem table_count_enforcement_amended :
    enforce_template_table_count
        ("Some prose\n\n| Name | City |\n|---|---|\n| Ann | Rome |\n\n| Dose | Response |\n|---|---|\n| 5 mg | Strong |\n\n| Foo | Bar |\n|---|---|\n| 1 | 2 |\n\nClosing prose").toList
        1 [["Dose".toList, "Response".toList]]
      = ("Some prose\n\n\n| Dose | Response |\n|---|---|\n| 5 mg | Strong |\n\n\nClosing prose").toList ∧
    enforce_template_table_count
        ("| Foo | Bar |\n|---|---|\n| Alpha | Beta |\n\n| Alpha | Gamma |\n|---|---|\n| 1 | 2 |").toList
        1 [["Alpha".toList, "Beta".toList]]
      = ("| Foo | Bar |\n|---|---|\n| Alpha | Beta |\n").toList ∧
    overlap_exceeds (template_header_set ["Alpha".toList, "Beta".toList])
      "| Foo | Bar |".toList = false ∧
    overlap_exceeds (template_header_set ["Alpha".toList, "Beta".toList])
      "| Alpha | Beta |".toList = true ∧
    (∀ content expected_count template_tables,
      ¬ (expected_count <
          (find_tables_go (Tables.split_char '\n' content).enum false []).length) →
        enforce_template_table_count content expected_count template_tables
          = content) ∧
    (∀ content (kept : List Nat),
      ∀ p ∈ (find_tables_go (Tables.split_char '\n' content).enum false []).enum,
        (∀ q ∈ p.2, q.1 ∈ lines_to_remove
            (find_tables_go (Tables.split_char '\n' content).enum false []) kept) ∨
        (∀ q ∈ p.2, q.1 ∉ lines_to_remove
            (find_tables_go (Tables.split_char '\n' content).enum false []) kept)) := by
  refine ⟨by decide, by decide, by decide, by decide, ?_, ?_⟩
  · intro content expected_count template_tables h
    simp only [enforce_template_table_count]
    rw [if_neg h]
  · intro content kept p hp
    by_cases hk : p.1 ∈ kept
    · right
      intro q hq hqin
      obtain ⟨p2, hp2f, hq2map⟩ := List.mem_flatMap.mp hqin
      have hp2 := (List.mem_filter.mp hp2f).1
      have hp2k : p2.1 ∉ kept := by
        have := (List.mem_filter.mp hp2f).2
        simpa using this
      have hne : p.1 ≠ p2.1 := fun he => hp2k (he ▸ hk)
      have hnep : p ≠ p2 := fun he => hne (congrArg Prod.fst he)
      have hsymm : Symmetric (fun a b : Nat × List (Nat × Str) =>
          a.1 ≠ b.1 → IdxDisjoint a.2 b.2) := by
        intro a b h hab q2 hq2 q1 hq1
        exact Ne.symm (h (Ne.symm hab) q1 hq1 q2 hq2)
      have hdisj := ((found_tables_disjoint_enum content).forall hsymm) hp hp2 hnep hne
      obtain ⟨q2, hq2, hq2eq⟩ := List.mem_map.mp hq2map
      exact absurd hq2eq.symm (hdisj q hq q2 hq2)
    · left
      intro q hq
      refine List.mem_flatMap.mpr ⟨p, List.mem_filter.mpr ⟨hp, by simpa using hk⟩,
        List.mem_map.mpr ⟨q, hq, rfl⟩⟩

/-- Witness for the amended C2 theorem: the identity branch on a content
whose single found table does not exceed the declared count, and the
all-or-nothing branch at the first found table of the concrete
three-table content. -/
theorem table_count_enforcement_amended_witness :
    enforce_template_table_count ("| A | B |\n|---|---|").toList 1 [] =
      ("| A | B |\n|---|---|").toList ∧
    ((∀ q ∈ [((2 : Nat), "| Name | City |".toList),
             (3, "|---|---|".toList), (4, "| Ann | Rome |".toList)],
        q.1 ∈ lines_to_remove
          (find_tables_go (Tables.split_char '\n'
            ("Some prose\n\n| Name | City |\n|---|---|\n| Ann | Rome |\n\n| Dose | Response |\n|---|---|\n| 5 mg | Strong |\n\n| Foo | Bar |\n|---|---|\n| 1 | 2 |\n\nClosing prose").toList).enum
            false []) [1]) ∨
     (∀ q ∈ [((2 : Nat), "| Name | City |".toList),
             (3, "|---|---|".toList), (4, "| Ann | Rome |".toList)],
        q.1 ∉ lines_to_remove
          (find_tables_go (Tables.split_char '\n'
            ("Some prose\n\n| Name | City |\n|---|---|\n| Ann | Rome |\n\n| Dose | Response |\n|---|---|\n| 5 mg | Strong |\n\n| Foo | Bar |\n|---|---|\n| 1 | 2 |\n\nClosing prose").toList).enum
            false []) [1])) := by
  constructor
  · exact table_count_enforcement_amended.2.2.2.2.1 _ 1 [] (by decide)
  · exact table_count_enforcement_amended.2.2.2.2.2 _ [1]
      (0, [((2 : Nat), "| Name | City |".toList),
           (3, "|---|---|".toList), (4, "| Ann | Rome |".toList)])
      (by decide)

end Enforce

namespace Generator

/-! ## Template filling (generator._fill_template, lines 69-104, with
_merge_template_with_content lines 106-136 and _find_relevant_content lines
138-156).

Extraction data is modelled as an insertion-ordered association list from
field names to optional string values (None becomes none). -/

/-- Case-insensitive literal prefix test, the IGNORECASE literal match of an
escaped field name. -/
def ci_prefix (name s : Str) : Bool :=
  (s.take name.length).map Char.toLower = name.map Char.toLower

/-- Match of the first field pattern at the head of s: one brace, an
optional second brace (greedy), the field name, an optional closing brace
(greedy) and a mandatory closing brace.  Returns the matched length. -/
def match_pat1_at (name : Str) (s : Str) : Option Nat :=
  let tryBody : Str → Nat → Option Nat := fun body braces =>
    if ci_prefix name body then
      match body.drop name.length with
      | '}' :: '}' :: _ => some (braces + name.length + 2)
      | '}' :: _ => some (braces + name.length + 1)
      | _ => none
    else none
  match s with
  | '{' :: rest =>
    match rest with
    | '{' :: rest2 =>
      match tryBody rest2 2 with
      | some n => some n
      | none => tryBody rest 1
    | _ => tryBody rest 1
  | _ => none

/-- Match of the second field pattern at the head of s: an optional brace
(greedy), the field name, and an optional closing brace (greedy). -/
def match_pat2_at (name : Str) (s : Str) : Option Nat :=
  let tryCore : Str → Nat → Option Nat := fun body pre =>
    if ci_prefix name body then
      match body.drop name.length with
      | '}' :: _ => some (pre + name.length + 1)
      | _ => some (pre + name.length)
    else none
  match s with
  | '{' :: rest =>
    match tryCore rest 1 with
    | some n => some n
    | none => tryCore s 0
  | _ => tryCore s 0

/-- re.sub with a positional matcher: scan left to right, replace every
leftmost non-overlapping match; a zero-width match inserts the replacement
and advances one character, as Python does. -/
def re_sub_go (matchAt : Str → Option Nat) (repl : Str) : Str → Str
  | [] =>
    match matchAt [] with
    | some 0 => repl
    | _ => []
  | c :: rest =>
    match matchAt (c :: rest) with
    | some 0 => repl ++ c :: re_sub_go matchAt repl rest
    | some (n + 1) => repl ++ re_sub_go matchAt repl ((c :: rest).drop (n + 1))
    | none => c :: re_sub_go matchAt repl rest
  termination_by s => s.length
  decreasing_by
    all_goals simp only [List.length_cons, List.length_drop]
    all_goals omega

/-- Replacement text for a field value: str(value) when truthy, else the
empty string (lines 80-81). -/
def field_replacement : Option Str → Str
  | some s => if s = [] then [] else s
  | none => []

/-- One iteration of the field loop (lines 74-85): substitute both patterns
for one field. -/
def fill_replace_field (content : Str) (field_name : Str) (value : Option Str) :
    Str :=
  re_sub_go (match_pat2_at field_name) (field_replacement value)
    (re_sub_go (match_pat1_at field_name) (field_replacement value) content)

/-- The field loop of _fill_template, skipping metadata fields whose name
starts with an underscore. -/
def fill_fields (content : Str) (data : List (Str × Option Str)) : Str :=
  data.foldl
    (fun content p =>
      match p.1 with
      | '_' :: _ => content
      | _ => fill_replace_field content p.1 p.2)
    content

/-- Truthy _content entry of the data dictionary (line 88). -/
def data_content (data : List (Str × Option Str)) : Option Str :=
  match data.find? (fun p => decide (p.1 = "_content".toList)) with
  | some (_, some s) => if s = [] then none else some s
  | _ => none

/-- Scan for a single-brace placeholder {x} with a non-empty body, the
re.search of the placeholder pattern. -/
def has_brace_token : Str → Bool
  | [] => false
  | c :: rest =>
    (c = '{' && decide (rest.takeWhile (fun x => !(x = '}')) ≠ []) &&
      decide (rest.dropWhile (fun x => !(x = '}')) ≠ [])) || has_brace_token rest

/-- Count of the placeholder matches of re.findall (line 90). -/
def count_brace_matches : Str → Nat
  | [] => 0
  | c :: rest =>
    if c = '{' ∧ rest.takeWhile (fun x => !(x = '}')) ≠ [] ∧
        rest.dropWhile (fun x => !(x = '}')) ≠ [] then
      1 + count_brace_matches ((rest.dropWhile (fun x => !(x = '}'))).tail)
    else count_brace_matches rest
  termination_by s => s.length
  decreasing_by
    · have := length_dropWhile_le (fun x => !(x = '}')) rest
      simp only [List.length_cons, List.length_tail]
      omega
    · simp only [List.length_cons]; omega

/-- First captured group of the placeholder pattern, used by
_find_relevant_content (line 141). -/
def first_brace_group : Str → Option Str
  | [] => none
  | c :: rest =>
    if c = '{' ∧ rest.takeWhile (fun x => !(x = '}')) ≠ [] ∧
        rest.dropWhile (fun x => !(x = '}')) ≠ [] then
      some (rest.takeWhile (fun x => !(x = '}')))
    else first_brace_group rest

/-- _find_relevant_content, lines 138-156: locate the first content line
containing the first placeholder keyword (case-insensitively) and return a
window from two lines before to five lines after it. -/
def find_relevant_content (placeholder_line content : Str) : Option Str :=
  match first_brace_group placeholder_line with
  | none => none
  | some kw0 =>
    let keyword := py_lower kw0
    let content_lines := Tables.split_char '\n' content
    match content_lines.enum.find? (fun p => py_in keyword (py_lower p.2)) with
    | some (i, _) =>
      some (List.intercalate ['\n']
        ((content_lines.drop (i - 2)).take (min content_lines.length (i + 5) - (i - 2))))
    | none => none

/-- Does the stripped line start with a hash (template heading test of line
131). -/
def starts_with_hash (s : Str) : Bool :=
  match py_strip s with
  | '#' :: _ => true
  | _ => false

/-- _merge_template_with_content, lines 106-136: placeholder lines are
replaced by relevant extracted content; when over 70% of the template lines
carry placeholders, the template headings are prepended to the raw
extracted content instead. -/
def merge_template_with_content (template extracted_content : Str) : Str :=
  let lines := Tables.split_char '\n' template
  let result := lines.flatMap
    (fun line =>
      if has_brace_token line then
        if extracted_content ≠ [] then
          match find_relevant_content line extracted_content with
          | some relevant => [relevant]
          | none =>
            [if py_in ['\n'] extracted_content then
              (Tables.split_char '\n' extracted_content).headD []
            else extracted_content]
        else []
      else [line])
  if ((lines.filter has_brace_token).length : ℚ) > (lines.length : ℚ) * 0.7 then
    let headers := lines.filter starts_with_hash
    if headers ≠ [] then
      List.intercalate ['\n'] headers ++ ['\n', '\n'] ++ extracted_content
    else extracted_content
  else List.intercalate ['\n'] result

/-- Cleanup substitution of the single-brace placeholder pattern with the
empty string (line 97). -/
def sub_brace : Str → Str
  | [] => []
  | c :: rest =>
    if c = '{' ∧ rest.takeWhile (fun x => !(x = '}')) ≠ [] ∧
        rest.dropWhile (fun x => !(x = '}')) ≠ [] then
      sub_brace ((rest.dropWhile (fun x => !(x = '}'))).tail)
    else c :: sub_brace rest
  termination_by s => s.length
  decreasing_by
    · have := length_dropWhile_le (fun x => !(x = '}')) rest
      simp only [List.length_cons, List.length_tail]
      omega
    · simp only [List.length_cons]; omega

/-- Body match of the double-brace pattern after its two opening braces: a
non-empty run without closing braces followed by two closing braces;
returns the consumed length. -/
def dbl_body_match (rest2 : Str) : Option Nat :=
  let before := rest2.takeWhile (fun x => !(x = '}'))
  match rest2.dropWhile (fun x => !(x = '}')) with
  | '}' :: '}' :: _ => if before ≠ [] then some (before.length + 2) else none
  | _ => none

/-- Match of the double-brace pattern at the head of a string: two opening
braces then dbl_body_match; returns the total consumed length. -/
def dbl_match_at : Str → Option Nat
  | '{' :: '{' :: rest2 => (dbl_body_match rest2).map (fun n => n + 2)
  | _ => none

theorem dbl_match_at_two_le (s : Str) (n : Nat) (h : dbl_match_at s = some n) :
    2 ≤ n := by
  unfold dbl_match_at at h
  split at h
  · rcases Option.map_eq_some'.mp h with ⟨m, _, hm⟩
    omega
  · cases h

/-- Scan for a double-brace placeholder, the re.search of the double-brace
pattern. -/
def has_double_brace_token : Str → Bool
  | [] => false
  | c :: rest => (dbl_match_at (c :: rest)).isSome || has_double_brace_token rest

/-- Cleanup substitution of the double-brace placeholder pattern with the
empty string (line 98). -/
def sub_double_brace : Str → Str
  | [] => []
  | c :: rest =>
    match hm : dbl_match_at (c :: rest) with
    | some n => sub_double_brace ((c :: rest).drop n)
    | none => c :: sub_double_brace rest
  termination_by s => s.length
  decreasing_by
    · have h2 := dbl_match_at_two_le _ _ hm
      simp only [List.length_cons, List.length_drop]
      omega
    · simp only [List.length_cons]
      omega

/-- Whitespace collapse of three or more consecutive newlines into two
(line 101). -/
def collapse_newlines : Str → Str
  | [] => []
  | c :: rest =>
    if c = '\n' then
      (if 3 ≤ 1 + (rest.takeWhile (fun x => x = '\n')).length then ['\n', '\n']
       else List.replicate (1 + (rest.takeWhile (fun x => x = '\n')).length) '\n') ++
        collapse_newlines (rest.dropWhile (fun x => x = '\n'))
    else c :: collapse_newlines rest
  termination_by s => s.length
  decreasing_by
    · have := length_dropWhile_le (fun x => x = '\n') rest
      simp only [List.length_cons]
      omega
    · simp only [List.length_cons]; omega

/-- _fill_template, lines 69-104: substitute every field, optionally merge
with the extracted content when the remaining template is mostly
placeholders, then delete remaining single- and double-brace placeholders,
collapse newline runs and strip. -/
def fill_template (template : Str) (data : List (Str × Option Str)) : Str :=
  let content := fill_fields template data
  let content :=
    match data_content data with
    | some extracted =>
      if ((count_brace_matches content : ℚ) /
          (max (split_ws content).length 1 : ℚ)) > 0.5 then
        merge_template_with_content content extracted
      else content
    | none => content
  py_strip (collapse_newlines (sub_double_brace (sub_brace content)))

/-- A string is brace-inert when every opening brace is either never
followed by a closing brace or immediately followed by one, so that no
placeholder-shaped substring remains. -/
def BracesInert (s : Str) : Prop :=
  ∀ a b, s = a ++ '{' :: b → (∀ x ∈ b, x ≠ '}') ∨ ∃ b2, b = '}' :: b2

theorem inert_of_no_close (s : Str) (h : '}' ∉ s) : BracesInert s := by
  intro a b hab
  left
  intro x hx hx2
  subst hx2
  apply h
  rw [hab]
  exact List.mem_append_right _ (List.mem_cons_of_mem _ hx)

theorem inert_suffix (xs ys : Str) (h : BracesInert (xs ++ ys)) :
    BracesInert ys := by
  intro a b hab
  refine h (xs ++ a) b ?_
  rw [hab, List.append_assoc]

theorem inert_cons_of_ne (c : Char) (rest : Str) (hc : c ≠ '{')
    (h : BracesInert rest) : BracesInert (c :: rest) := by
  intro a b hab
  cases a with
  | nil =>
    rw [List.nil_append] at hab
    exact absurd (List.head_eq_of_cons_eq hab) hc
  | cons x a2 =>
    rw [List.cons_append] at hab
    exact h a2 b (List.tail_eq_of_cons_eq hab)

theorem inert_prepend (pre u : Str) (hpre : ∀ c ∈ pre, c ≠ '{')
    (h : BracesInert u) : BracesInert (pre ++ u) := by
  induction pre with
  | nil => simpa using h
  | cons c pre2 ih =>
    rw [List.cons_append]
    exact inert_cons_of_ne c _ (hpre c (List.mem_cons_self _ _))
      (ih fun d hd => hpre d (List.mem_cons_of_mem _ hd))

theorem inert_brace_close (rest : Str) (h : BracesInert ('}' :: rest)) :
    BracesInert ('{' :: '}' :: rest) := by
  intro a b hab
  cases a with
  | nil =>
    rw [List.nil_append] at hab
    exact Or.inr ⟨rest, (List.tail_eq_of_cons_eq hab).symm⟩
  | cons x a2 =>
    rw [List.cons_append] at hab
    exact h a2 b (List.tail_eq_of_cons_eq hab)

theorem inert_infix (u t v : Str) (h : BracesInert (u ++ t ++ v)) :
    BracesInert t := by
  intro a b hab
  have hs : u ++ t ++ v = (u ++ a) ++ '{' :: (b ++ v) := by
    rw [hab]
    simp [List.append_assoc]
  rcases h (u ++ a) (b ++ v) hs with hleft | ⟨b2, hb2⟩
  · left
    intro x hx
    exact hleft x (List.mem_append_left _ hx)
  · cases b with
    | nil =>
      left
      intro x hx
      exact absurd hx (List.not_mem_nil x)
    | cons y b3 =>
      rw [List.cons_append] at hb2
      exact Or.inr ⟨b3, by rw [List.head_eq_of_cons_eq hb2]⟩

theorem sub_brace_mem : ∀ (n : Nat) (s : Str), s.length ≤ n →
    ∀ x ∈ Generator.sub_brace s, x ∈ s := by
  intro n
  induction n with
  | zero =>
    intro s h x hx
    have hnil : s = [] := List.eq_nil_of_length_eq_zero (Nat.le_zero.mp h)
    subst hnil
    simpa [Generator.sub_brace] using hx
  | succ n ih =>
    intro s h x hx
    match s with
    | [] => simpa [Generator.sub_brace] using hx
    | c :: rest =>
      rw [Generator.sub_brace] at hx
      by_cases hc : c = '{' ∧ rest.takeWhile (fun x => !(x = '}')) ≠ [] ∧
          rest.dropWhile (fun x => !(x = '}')) ≠ []
      · rw [if_pos hc] at hx
        have hlen : ((rest.dropWhile (fun x => !(x = '}'))).tail).length ≤ n := by
          have h1 := length_dropWhile_le (fun x => !(x = '}')) rest
          have h2 : (c :: rest).length ≤ n + 1 := h
          simp only [List.length_cons] at h2
          simp only [List.length_tail]
          omega
        have hx2 := ih _ hlen x hx
        have hx3 : x ∈ rest :=
          ((List.tail_sublist _).trans (List.dropWhile_sublist _)).mem hx2
        exact List.mem_cons_of_mem _ hx3
      · rw [if_neg hc] at hx
        rcases List.mem_cons.mp hx with rfl | hx2
        · exact List.mem_cons_self _ _
        · have hlen : rest.length ≤ n := by
            have h2 : (c :: rest).length ≤ n + 1 := h
            simp only [List.length_cons] at h2
            omega
          exact List.mem_cons_of_mem _ (ih _ hlen x hx2)

theorem collapse_newlines_mem : ∀ (n : Nat) (s : Str), s.length ≤ n →
    ∀ x ∈ Generator.collapse_newlines s, x ∈ s := by
  intro n
  induction n with
  | zero =>
    intro s h x hx
    have hnil : s = [] := List.eq_nil_of_length_eq_zero (Nat.le_zero.mp h)
    subst hnil
    simpa [Generator.collapse_newlines] using hx
  | succ n ih =>
    intro s h x hx
    match s with
    | [] => simpa [Generator.collapse_newlines] using hx
    | c :: rest =>
      have hlen : rest.length ≤ n := by
        have h2 : (c :: rest).length ≤ n + 1 := h
        simp only [List.length_cons] at h2
        omega
      rw [Generator.collapse_newlines] at hx
      by_cases hc : c = '\n'
      · rw [if_pos hc] at hx
        rcases List.mem_append.mp hx with hx2 | hx2
        · have : x = '\n' := by
            by_cases h3 : 3 ≤ 1 + (rest.takeWhile (fun x => x = '\n')).length
            · rw [if_pos h3] at hx2
              rcases List.mem_cons.mp hx2 with rfl | hx3
              · rfl
              · simpa using hx3
            · rw [if_neg h3] at hx2
              exact List.eq_of_mem_replicate hx2
          rw [this, ← hc]
          exact List.mem_cons_self _ _
        · have hlen2 : (rest.dropWhile (fun x => x = '\n')).length ≤ n := by
            have := length_dropWhile_le (fun x => x = '\n') rest
            omega
          have hx3 := ih _ hlen2 x hx2
          exact List.mem_cons_of_mem _ ((List.dropWhile_sublist _).mem hx3)
      · rw [if_neg hc] at hx
        rcases List.mem_cons.mp hx with rfl | hx2
        · exact List.mem_cons_self _ _
        · exact List.mem_cons_of_mem _ (ih _ hlen x hx2)

theorem sub_brace_inert : ∀ (n : Nat) (s : Str), s.length ≤ n →
    BracesInert (Generator.sub_brace s) := by
  intro n
  induction n with
  | zero =>
    intro s h
    have hnil : s = [] := List.eq_nil_of_length_eq_zero (Nat.le_zero.mp h)
    subst hnil
    intro a b hab
    rw [Generator.sub_brace] at hab
    exact absurd hab (by simp)
  | succ n ih =>
    intro s h
    match s with
    | [] =>
      intro a b hab
      rw [Generator.sub_brace] at hab
      exact absurd hab (by simp)
    | c :: rest =>
      have hrest : rest.length ≤ n := by
        have h2 : (c :: rest).length ≤ n + 1 := h
        simp only [List.length_cons] at h2
        omega
      rw [Generator.sub_brace]
      by_cases hc : c = '{' ∧ rest.takeWhile (fun x => !(x = '}')) ≠ [] ∧
          rest.dropWhile (fun x => !(x = '}')) ≠ []
      · rw [if_pos hc]
        refine ih _ ?_
        have h1 := length_dropWhile_le (fun x => !(x = '}')) rest
        simp only [List.length_tail]
        omega
      · rw [if_neg hc]
        by_cases hbrace : c = '{'
        · have hnc : ¬ (rest.takeWhile (fun x => !(x = '}')) ≠ [] ∧
              rest.dropWhile (fun x => !(x = '}')) ≠ []) :=
            fun hh => hc ⟨hbrace, hh⟩
          by_cases hdrop : rest.dropWhile (fun x => !(x = '}')) = []
          · have hall : ∀ x ∈ rest, (fun x => !(x = '}')) x :=
              List.dropWhile_eq_nil_iff.mp hdrop
            have hnoc : '}' ∉ rest := by
              intro hmem
              simpa using hall '}' hmem
            refine inert_of_no_close _ ?_
            intro hm
            rcases List.mem_cons.mp hm with he | hm2
            · rw [hbrace] at he
              cases he
            · exact hnoc (sub_brace_mem n rest hrest '}' hm2)
          · have htake : rest.takeWhile (fun x => !(x = '}')) = [] := by
              by_contra hne
              exact hnc ⟨hne, hdrop⟩
            match rest, hrest, htake, hdrop with
            | [], _, _, hdrop2 => exact absurd rfl hdrop2
            | r :: rest2, hrest2, htake2, _ =>
              have hr : r = '}' := by
                rw [List.takeWhile_cons] at htake2
                by_cases hr2 : (r = '}')
                · exact hr2
                · rw [if_pos (by simpa using hr2)] at htake2
                  cases htake2
              have hsub : Generator.sub_brace (r :: rest2)
                  = r :: Generator.sub_brace rest2 := by
                rw [Generator.sub_brace, if_neg]
                rintro ⟨h1, -⟩
                rw [hr] at h1
                cases h1
              rw [hsub, hbrace, hr]
              refine inert_brace_close _ ?_
              refine inert_cons_of_ne '}' _ (by decide) ?_
              refine ih rest2 ?_
              simp only [List.length_cons] at hrest2
              omega
        · exact inert_cons_of_ne c _ hbrace (ih rest hrest)

theorem dbl_body_match_eq_none_of_inert (s : Str) (a rest2 : Str)
    (h : BracesInert s) (hs : s = a ++ '{' :: rest2) :
    Generator.dbl_body_match rest2 = none := by
  rcases h a rest2 hs with hleft | ⟨b2, hb2⟩
  · have hdrop : rest2.dropWhile (fun x => !(x = '}')) = [] := by
      rw [List.dropWhile_eq_nil_iff]
      intro x hx
      simpa using hleft x hx
    rw [Generator.dbl_body_match, hdrop]
  · rw [Generator.dbl_body_match, hb2]
    have : ('}' :: b2).takeWhile (fun x => !(x = '}')) = [] := by
      rw [List.takeWhile_cons]
      simp
    rw [this]
    have hdw : ('}' :: b2).dropWhile (fun x => !(x = '}')) = '}' :: b2 := by
      rw [List.dropWhile_cons]
      simp
    rw [hdw]
    cases b2 with
    | nil => rfl
    | cons y b3 =>
      by_cases hy : y = '}'
      · subst hy
        simp
      · have : ('}' :: y :: b3 : Str) ≠ '}' :: '}' :: b3 := by
          intro hcontra
          exact hy (by injection hcontra with _ h2; injection h2)
        simp [hy]

theorem dbl_match_at_eq_none_of_inert (s : Str) (h : BracesInert s) :
    Generator.dbl_match_at s = none := by
  unfold Generator.dbl_match_at
  split
  · rename_i rest2
    rw [dbl_body_match_eq_none_of_inert ('{' :: '{' :: rest2) ['{'] rest2 h rfl]
    rfl
  · rfl

theorem sub_double_brace_of_inert : ∀ (n : Nat) (s : Str), s.length ≤ n →
    BracesInert s → Generator.sub_double_brace s = s := by
  intro n
  induction n with
  | zero =>
    intro s h _
    have hnil : s = [] := List.eq_nil_of_length_eq_zero (Nat.le_zero.mp h)
    subst hnil
    rw [Generator.sub_double_brace]
  | succ n ih =>
    intro s h hinert
    match s with
    | [] => rw [Generator.sub_double_brace]
    | c :: rest =>
      have hrest : rest.length ≤ n := by
        have h2 : (c :: rest).length ≤ n + 1 := h
        simp only [List.length_cons] at h2
        omega
      rw [Generator.sub_double_brace]
      rw [dbl_match_at_eq_none_of_inert _ hinert]
      rw [ih rest hrest (inert_suffix [c] rest hinert)]

theorem collapse_newlines_inert : ∀ (n : Nat) (s : Str), s.length ≤ n →
    BracesInert s → BracesInert (Generator.collapse_newlines s) := by
  intro n
  induction n with
  | zero =>
    intro s h _
    have hnil : s = [] := List.eq_nil_of_length_eq_zero (Nat.le_zero.mp h)
    subst hnil
    rw [Generator.collapse_newlines]
    intro a b hab
    exact absurd hab (by simp)
  | succ n ih =>
    intro s h hinert
    match s with
    | [] =>
      rw [Generator.collapse_newlines]
      intro a b hab
      exact absurd hab (by simp)
    | c :: rest =>
      have hrest : rest.length ≤ n := by
        have h2 : (c :: rest).length ≤ n + 1 := h
        simp only [List.length_cons] at h2
        omega
      have hrest_inert : BracesInert rest := inert_suffix [c] rest hinert
      rw [Generator.collapse_newlines]
      by_cases hc : c = '\n'
      · rw [if_pos hc]
        have hsuffix : BracesInert (rest.dropWhile (fun x => x = '\n')) := by
          refine inert_suffix (c :: rest.takeWhile (fun x => x = '\n')) _ ?_
          rw [List.cons_append, List.takeWhile_append_dropWhile]
          exact hinert
        have hcoll : BracesInert
            (Generator.collapse_newlines (rest.dropWhile (fun x => x = '\n'))) := by
          refine ih _ ?_ hsuffix
          have := length_dropWhile_le (fun x => x = '\n') rest
          omega
        refine inert_prepend _ _ ?_ hcoll
        intro d hd
        by_cases h3 : 3 ≤ 1 + (rest.takeWhile (fun x => x = '\n')).length
        · rw [if_pos h3] at hd
          rcases List.mem_cons.mp hd with rfl | hd2
          · decide
          · rw [List.mem_singleton] at hd2
            rw [hd2]
            decide
        · rw [if_neg h3] at hd
          rw [List.eq_of_mem_replicate hd]
          decide
      · rw [if_neg hc]
        by_cases hbrace : c = '{'
        · rcases hinert [] rest (by rw [hbrace]; rfl) with hleft | ⟨b2, hb2⟩
          · refine inert_of_no_close _ ?_
            intro hm
            rcases List.mem_cons.mp hm with he | hm2
            · rw [hbrace] at he
              cases he
            · exact absurd rfl
                (hleft '}' (collapse_newlines_mem n rest hrest '}' hm2))
          · have hb2len : b2.length ≤ n := by
              rw [hb2] at hrest
              simp only [List.length_cons] at hrest
              omega
            have hcoll2 : Generator.collapse_newlines rest
                = '}' :: Generator.collapse_newlines b2 := by
              rw [hb2, Generator.collapse_newlines, if_neg (by decide)]
            rw [hcoll2, hbrace]
            refine inert_brace_close _ ?_
            refine inert_cons_of_ne '}' _ (by decide) ?_
            refine ih b2 hb2len ?_
            refine inert_suffix ['{', '}'] b2 ?_
            have heq : (['{', '}'] ++ b2 : Str) = c :: rest := by
              rw [hbrace, hb2]
              rfl
            rw [heq]
            exact hinert
        · exact inert_cons_of_ne c _ hbrace (ih rest hrest hrest_inert)

theorem py_strip_inert (s : Str) (h : BracesInert s) :
    BracesInert (py_strip s) := by
  have e1 : s = s.takeWhile py_is_space ++ s.dropWhile py_is_space :=
    (List.takeWhile_append_dropWhile _ _).symm
  have e3 : s.dropWhile py_is_space =
      ((s.dropWhile py_is_space).reverse.dropWhile py_is_space).reverse ++
      ((s.dropWhile py_is_space).reverse.takeWhile py_is_space).reverse := by
    calc s.dropWhile py_is_space
        = (s.dropWhile py_is_space).reverse.reverse :=
          (List.reverse_reverse _).symm
      _ = ((s.dropWhile py_is_space).reverse.takeWhile py_is_space ++
            (s.dropWhile py_is_space).reverse.dropWhile py_is_space).reverse := by
          rw [List.takeWhile_append_dropWhile]
      _ = ((s.dropWhile py_is_space).reverse.dropWhile py_is_space).reverse ++
          ((s.dropWhile py_is_space).reverse.takeWhile py_is_space).reverse := by
          rw [List.reverse_append]
  have hs2 : s = (s.takeWhile py_is_space ++
      ((s.dropWhile py_is_space).reverse.dropWhile py_is_space).reverse) ++
      ((s.dropWhile py_is_space).reverse.takeWhile py_is_space).reverse := by
    rw [List.append_assoc, ← e3, ← e1]
  rw [py_strip]
  exact inert_infix _ _ _ (hs2 ▸ h)

theorem has_brace_token_eq_false_of_inert (s : Str) (h : BracesInert s) :
    Generator.has_brace_token s = false := by
  induction s with
  | nil => rfl
  | cons c rest ih =>
    rw [Generator.has_brace_token]
    have htail := ih (inert_suffix [c] rest h)
    rw [htail, Bool.or_false]
    by_cases hbrace : c = '{'
    · rcases h [] rest (by rw [hbrace]; rfl) with hleft | ⟨b2, hb2⟩
      · have hdrop : rest.dropWhile (fun x => !(x = '}')) = [] := by
          rw [List.dropWhile_eq_nil_iff]
          intro x hx
          simpa using hleft x hx
        simp [hdrop]
      · have htake : rest.takeWhile (fun x => !(x = '}')) = [] := by
          rw [hb2, List.takeWhile_cons]
          simp
        simp [htake]
    · simp [hbrace]

theorem has_double_brace_token_eq_false_of_inert (s : Str) (h : BracesInert s) :
    Generator.has_double_brace_token s = false := by
  induction s with
  | nil => rfl
  | cons c rest ih =>
    rw [Generator.has_double_brace_token]
    rw [dbl_match_at_eq_none_of_inert _ h, ih (inert_suffix [c] rest h)]
    rfl

/-- C10: after template filling no single-brace or double-brace placeholder
token remains in the output: the final cleanup deletes every such token and
no later step reintroduces one. -/
theorem template_fill_no_placeholder (template : Str)
    (data : List (Str × Option Str)) :
    Generator.has_brace_token (Generator.fill_template template data) = false ∧
    Generator.has_double_brace_token (Generator.fill_template template data)
      = false := by
  have hchain : ∀ content : Str, BracesInert
      (py_strip (Generator.collapse_newlines
        (Generator.sub_double_brace (Generator.sub_brace content)))) := by
    intro content
    have h1 : BracesInert (Generator.sub_brace content) :=
      sub_brace_inert _ _ le_rfl
    rw [sub_double_brace_of_inert _ _ le_rfl h1]
    exact py_strip_inert _ (collapse_newlines_inert _ _ le_rfl h1)
  rw [Generator.fill_template]
  exact ⟨has_brace_token_eq_false_of_inert _ (hchain _),
    has_double_brace_token_eq_false_of_inert _ (hchain _)⟩

end Generator

namespace TemplateParse

/-! ## Template structure parsing (template_parser._parse_markdown_template
lines 198-297, _is_valid_section_header lines 299-373,
_detect_alternative_header lines 375-454, _looks_like_table_or_list_item
lines 456-479, _save_section lines 481-511, get_section lines 540-556 and
get_section_structure lines 558-595). -/

/-- Python regex word character (ASCII). -/
def is_word_char (c : Char) : Bool := c.isAlpha || c.isDigit || c = '_'

/-- Word-boundary test before the current position given the previous
character. -/
def boundary_before : Option Char → Bool
  | none => true
  | some p => !(is_word_char p)

/-- Does s start with a run of at least k digits. -/
def starts_with_digit_run (k : Nat) (s : Str) : Bool :=
  decide (k ≤ s.length) && (s.take k).all Char.isDigit

/-- re.search for a run of at least k consecutive digits. -/
def has_digit_run (k : Nat) : Str → Bool
  | [] => decide (k = 0)
  | c :: rest => starts_with_digit_run k (c :: rest) || has_digit_run k rest

/-- Continuation of the quantity-unit pattern after its leading digit: a
digit run, optional whitespace, one of the unit alternatives and a trailing
word boundary. -/
def unit_after_digits (units : List Str) (s : Str) : Bool :=
  let digits := s.takeWhile Char.isDigit
  let after := s.drop digits.length
  let after2 := after.drop (after.takeWhile py_is_space).length
  decide (digits ≠ []) && units.any (fun u =>
    u.isPrefixOf after2 &&
      (match after2.drop u.length with
       | [] => true
       | d :: _ => !(is_word_char d)))

def unit_qty_go (units : List Str) : Option Char → Str → Bool
  | _, [] => false
  | prev, c :: rest =>
    (boundary_before prev && c.isDigit && unit_after_digits units (c :: rest)) ||
      unit_qty_go units (some c) rest

/-- re.search of a word-bounded quantity-with-unit pattern over a lowercase
string. -/
def unit_qty_search (units : List Str) (s : Str) : Bool := unit_qty_go units none s

def qty_unit_go (nums units : List Str) : Option Char → Str → Bool
  | _, [] => false
  | prev, c :: rest =>
    (boundary_before prev && nums.any (fun nu =>
      nu.isPrefixOf (c :: rest) &&
        (let after := (c :: rest).drop nu.length
         let after2 := after.drop (after.takeWhile py_is_space).length
         units.any (fun u => u.isPrefixOf after2 &&
           (match after2.drop u.length with
            | [] => true
            | d :: _ => !(is_word_char d)))))) ||
      qty_unit_go nums units (some c) rest

/-- re.search of a word-bounded round-quantity pattern (one of the numeric
literals, optional whitespace, a unit, boundary). -/
def qty_unit_search (nums units : List Str) (s : Str) : Bool :=
  qty_unit_go nums units none s

/-- Full match against the code pattern of uppercase letters, digits,
dashes and whitespace with a length range. -/
def all_caps_code_match (minLen maxLen : Nat) (s : Str) : Bool :=
  decide (minLen ≤ s.length) && decide (s.length ≤ maxLen) &&
    s.all (fun c => (decide ('A' ≤ c) && decide (c ≤ 'Z')) || c.isDigit ||
      c = '-' || py_is_space c)

/-- Python str.isupper: at least one cased character and no lowercase. -/
def py_isupper (s : Str) : Bool :=
  s.any (fun c => c.isUpper || c.isLower) && s.all (fun c => !(c.isLower))

def istitle_go : Bool → Str → Bool
  | _, [] => true
  | prev, c :: rest =>
    if c.isUpper then !prev && istitle_go true rest
    else if c.isLower then prev && istitle_go true rest
    else istitle_go false rest

/-- Python str.istitle (ASCII): uppercase only at word starts, lowercase
only after cased characters, at least one cased character. -/
def py_istitle (s : Str) : Bool :=
  s.any (fun c => c.isUpper || c.isLower) && istitle_go false s

def title_go : Bool → Str → Str
  | _, [] => []
  | prev, c :: rest =>
    if c.isAlpha then (if prev then c.toLower else c.toUpper) :: title_go true rest
    else c :: title_go false rest

/-- Python str.title (ASCII). -/
def py_title (s : Str) : Str := title_go false s

/-- Python str.isdigit (ASCII digits). -/
def py_isdigit (s : Str) : Bool := decide (s ≠ []) && s.all Char.isDigit

/-- Does the string end with a comma. -/
def py_endswith_comma (s : Str) : Bool :=
  match s.getLast? with
  | some ',' => true
  | _ => false

/-- Scientific-section keywords of _is_valid_section_header lines 321-327. -/
def sci_kw_A : List Str :=
  ["introduction", "method", "result", "discussion", "conclusion",
   "abstract", "background", "objective", "aim", "purpose",
   "materials", "procedure", "experiment", "analysis", "data",
   "finding", "observation", "summary", "reference", "citation",
   "appendix", "acknowledgment", "abstract", "overview"].map String.toList

/-- Supplier names of line 333. -/
def common_suppliers : List Str :=
  ["vwr", "fisher", "sigma", "thermo", "millipore", "corning",
   "falcon"].map String.toList

/-- Product indicators of line 339. -/
def product_indicators : List Str :=
  ["ml", "kg", "l", "g", "mg", "mm", "cm", "um", "nm"].map String.toList

/-- Scientific-section keywords of lines 351-355. -/
def sci_kw_B : List Str :=
  ["introduction", "method", "result", "discussion", "conclusion",
   "abstract", "background", "objective", "materials", "procedure",
   "experiment", "analysis", "finding", "summary"].map String.toList

/-- Unit alternatives of the regex on line 348. -/
def units_A : List Str :=
  ["ml", "kg", "l", "g", "mg", "mm", "cm", "um", "nm", "°c",
   "celsius"].map String.toList

/-- Numeric literals of the regex on line 349. -/
def qty_nums : List Str :=
  ["250", "500", "1000", "100", "50", "25", "10", "5", "1"].map String.toList

/-- Unit alternatives of the regex on line 349. -/
def qty_units : List Str := ["ml", "kg", "l"].map String.toList

/-- _is_valid_section_header, lines 299-373. -/
def is_valid_section_header (section_name : Str) (all_lines : List Str)
    (current_index : Nat) : Bool :=
  let section_lower := py_strip (py_lower section_name)
  if py_in ['|'] section_name then false
  else if decide (section_name.length < 3) ||
      py_isdigit (py_strip ((section_name.filter
        (fun c => !(c = '.'))).filter (fun c => !(c = ',')))) then false
  else if all_caps_code_match 2 20 section_name &&
      !(sci_kw_A.any (fun kw => py_in kw section_lower)) then false
  else if (decide (section_lower ∈ common_suppliers) ||
        common_suppliers.any (fun sup => py_in sup section_lower)) &&
      (let next_lines := (((all_lines.drop (current_index + 1)).take 4).map
        py_strip).filter (fun l => l ≠ [])
       decide (next_lines ≠ []) &&
        ((next_lines.take 3).any (fun l =>
            product_indicators.any (fun ind => py_in ind (py_lower l))) ||
         (next_lines.take 3).any (fun l => has_digit_run 4 l))) then false
  else if (py_endswith_comma section_lower ||
        unit_qty_search units_A section_lower ||
        qty_unit_search qty_nums qty_units section_lower) &&
      !(sci_kw_B.any (fun kw => py_in kw section_lower)) then false
  else if !(((all_lines.drop (current_index + 1)).take 9).any (fun l =>
      decide (py_strip l ≠ []) &&
        !(match py_strip l with | '#' :: _ => true | _ => false) &&
        !(py_in ['|'] (py_strip l)))) then false
  else true

/-- Skip keywords of _detect_alternative_header lines 389-390. -/
def alt_skip_kw : List Str :=
  ["introduction", "method", "result", "discussion", "conclusion",
   "abstract"].map String.toList

/-- Supplier names of line 394. -/
def alt_suppliers : List Str :=
  ["vwr", "fisher", "sigma", "thermo", "millipore", "corning", "falcon",
   "bd", "nunc"].map String.toList

/-- Scientific keywords repeated at lines 403-407, 421-425 and 438-442. -/
def alt_kw : List Str :=
  ["introduction", "method", "result", "discussion", "conclusion",
   "abstract", "background", "objective", "materials", "procedure",
   "experiment", "analysis", "finding", "summary", "reference"].map String.toList

/-- Unit alternatives of the skip regex on line 387. -/
def units_alt : List Str :=
  ["ml", "kg", "l", "g", "mg", "mm", "cm"].map String.toList

/-- Group 2 of the numbered-section pattern of line 415: digits, an optional
dot, whitespace, an uppercase letter and at least ten further
non-dot characters. -/
def numbered_match (s : Str) : Option Str :=
  let tryFrom : Str → Option Str := fun r =>
    let ws := r.takeWhile py_is_space
    if ws = [] then none
    else
      match r.drop ws.length with
      | c :: rest2 =>
        if decide ('A' ≤ c) && decide (c ≤ 'Z') then
          let body := rest2.takeWhile (fun x => !(x = '.'))
          if 10 ≤ body.length then some (c :: body) else none
        else none
      | [] => none
  let digits := s.takeWhile Char.isDigit
  if digits = [] then none
  else
    match s.drop digits.length with
    | '.' :: rest2 =>
      (match tryFrom rest2 with
       | some g => some g
       | none => tryFrom ('.' :: rest2))
    | rest1 => tryFrom rest1

/-- _detect_alternative_header, lines 375-454, returning the section name
and level. -/
def detect_alternative_header (line : Str) (all_lines : List Str)
    (current_index : Nat) : Option (Str × Nat) :=
  let line_stripped := py_strip line
  let line_lower := py_lower line_stripped
  if line_stripped = [] then none
  else if has_digit_run 6 line_stripped ||
      unit_qty_search units_alt line_lower ||
      (py_endswith_comma line_lower && decide (line_stripped.length < 60)) ||
      (all_caps_code_match 2 15 line_stripped &&
        !(alt_skip_kw.any (fun w => py_in w line_lower))) then none
  else if decide (line_lower ∈ alt_suppliers) then none
  else
    let words := (split_ws line_stripped).length
    let pattern3 : Option (Str × Nat) :=
      if (py_istitle line_stripped ||
          ((match line_stripped with
            | c :: _ => c.isUpper
            | [] => false) && !(py_isupper line_stripped))) &&
          decide (2 ≤ words) && decide (words ≤ 8) &&
          !(py_in ['|'] line_stripped) && decide (line_stripped.length < 80) then
        if alt_kw.any (fun kw => py_in kw line_lower) then
          if all_lines.enum.any (fun p =>
              decide (current_index - 3 ≤ p.1) &&
              decide (p.1 < min (current_index + 3) all_lines.length) &&
              decide (p.1 ≠ current_index) && py_in ['|'] p.2) then none
          else some (line_stripped, 1)
        else none
      else none
    let pattern2 : Option (Str × Nat) :=
      match numbered_match line_stripped with
      | some g2 =>
        if !(py_in ['|'] line_stripped) then
          let section_name := py_strip g2
          if decide (10 < section_name.length) then
            if alt_kw.any (fun kw => py_in kw (py_lower section_name)) ||
                decide (4 ≤ (split_ws section_name).length) then
              some (section_name, 1)
            else pattern3
          else pattern3
        else pattern3
      | none => pattern3
    if py_isupper line_stripped && decide (3 ≤ words) && decide (words ≤ 12) &&
        decide (line_stripped.length < 100) then
      if !(py_in ['|'] line_stripped) then
        if alt_kw.any (fun kw => py_in kw line_lower) then
          some (py_title line_stripped, 1)
        else if decide (words ≤ 2) && decide (line_lower ∈ alt_suppliers) then
          none
        else pattern2
      else pattern2
    else pattern2

/-- Content after the numbered-list prefix of _looks_like_table_or_list_item
(lines 469-471), when the numbered-list pattern matches. -/
def numbered_item_content (s : Str) : Option Str :=
  let digits := s.takeWhile Char.isDigit
  if digits = [] then none
  else
    match s.drop digits.length with
    | c :: rest =>
      if c = '.' || c = ')' then
        let ws := rest.takeWhile py_is_space
        if ws = [] then none
        else
          match rest.drop ws.length with
          | d :: rest2 =>
            if decide ('A' ≤ d) && decide (d ≤ 'Z') then some (d :: rest2)
            else none
          | [] => none
      else none
    | [] => none

/-- _looks_like_table_or_list_item, lines 456-479. -/
def looks_like_table_or_list_item (line : Str) : Bool :=
  let s := py_strip line
  if py_in ['|'] s then true
  else if (match s with
    | c :: rest => (c = '*' || c = '-' || c = '+') &&
        decide (rest.takeWhile py_is_space ≠ [])
    | [] => false) then true
  else if (match numbered_item_content s with
    | some content => decide (content.length < 30)
    | none => false) then true
  else if py_endswith_comma s && decide (s.length < 40) then true
  else false

/-- Markdown header match of line 235: one to six hashes, whitespace, and a
non-empty remainder; returns the header level and the raw group-2 text
(backtracking can hand the last whitespace character to the group when
nothing else follows). -/
def header_match (line : Str) : Option (Nat × Str) :=
  let h := (line.takeWhile (fun c => c = '#')).length
  if decide (1 ≤ h) && decide (h ≤ 6) then
    let rest := line.drop h
    let w := (rest.takeWhile py_is_space).length
    if w = 0 then none
    else if rest.drop w ≠ [] then some (h, rest.drop w)
    else if 2 ≤ w then some (h, rest.drop (w - 1))
    else none
  else none

/-- The section record stored per joined path key: name, path, level and
accumulated body (the placeholder fields and hierarchy mirror, not needed by
the lookup claims, are omitted). -/
structure SectionInfo where
  name : Str
  path : List Str
  level : Nat
  content : Str
  deriving DecidableEq, Repr

/-- Python dict assignment for the sections dictionary: an existing key
keeps its position, a new key is appended. -/
def dict_set_section (k : Str) (v : SectionInfo) :
    List (Str × SectionInfo) → List (Str × SectionInfo)
  | [] => [(k, v)]
  | (k1, v1) :: rest =>
    if k1 = k then (k1, v) :: rest else (k1, v1) :: dict_set_section k v rest

/-- _save_section, lines 481-511: key the section by its joined path and
store name, path, level and stripped content. -/
def save_section (sections : List (Str × SectionInfo)) (section_path : List Str)
    (section_content : List Str) : List (Str × SectionInfo) :=
  dict_set_section (List.intercalate ['/'] section_path)
    { name := section_path.getLastD []
      path := section_path
      level := section_path.length
      content := py_strip (List.intercalate ['\n'] section_content) }
    sections

/-- Line loop of _parse_markdown_template, lines 208-297.  The state is the
current section name, its accumulated body lines, the section path, the
in-table flag and the sections dictionary; all_lines and the index are kept
for the lookahead and context checks.  After the table branches the flag is
false on every remaining path, so the alternative-header branch (guarded by
not in_table in the source) is always reachable there. -/
def parse_go (all_lines : List Str) : List Str → Nat → Option Str → List Str →
    List Str → Bool → List (Str × SectionInfo) → List (Str × SectionInfo)
  | [], _, current_section, section_content, section_path, _, sections =>
    if current_section.isSome then save_section sections section_path section_content
    else sections
  | line :: rest, i, current_section, section_content, section_path, in_table,
      sections =>
    let line_stripped := py_strip line
    let is_table_row := py_in ['|'] line &&
      (Tables.starts_with_pipe line_stripped ||
       Tables.ends_with_pipe line_stripped ||
       (Tables.starts_with_pipe line_stripped &&
        Tables.ends_with_pipe line_stripped && decide (2 ≤ line_stripped.length)))
    let is_table_separator := matches_sep_pattern line_stripped ||
      py_in ['-', '-', '-'] line_stripped
    if is_table_row || is_table_separator then
      parse_go all_lines rest (i + 1) current_section
        (if current_section.isSome then section_content ++ [line]
         else section_content) section_path true sections
    else if in_table && line_stripped.isEmpty then
      parse_go all_lines rest (i + 1) current_section
        (if current_section.isSome then section_content ++ [line]
         else section_content) section_path true sections
    else
      match header_match line with
      | some (header_level, body) =>
        if is_valid_section_header (py_strip body) all_lines i then
          parse_go all_lines rest (i + 1) (some (py_strip body)) []
            ((if header_level ≤ section_path.length then
                section_path.take (header_level - 1)
              else section_path) ++ [py_strip body]) false
            (if current_section.isSome then
              save_section sections section_path section_content
             else sections)
        else
          parse_go all_lines rest (i + 1) current_section
            (if current_section.isSome then section_content ++ [line]
             else section_content) section_path false sections
      | none =>
        match detect_alternative_header line all_lines i with
        | some (section_name, header_level) =>
          if is_valid_section_header section_name all_lines i then
            parse_go all_lines rest (i + 1) (some section_name) []
              ((if header_level ≤ section_path.length then
                  section_path.take (header_level - 1)
                else section_path) ++ [section_name]) false
              (if current_section.isSome then
                save_section sections section_path section_content
               else sections)
          else
            parse_go all_lines rest (i + 1) current_section
              (if current_section.isSome then section_content ++ [line]
               else section_content) section_path false sections
        | none =>
          parse_go all_lines rest (i + 1) current_section
            (if current_section.isSome then section_content ++ [line]
             else section_content) section_path false sections

/-- _parse_markdown_template, lines 198-297: split into lines and run the
line loop from an empty state. -/
def parse_markdown_template (content : Str) : List (Str × SectionInfo) :=
  parse_go (Tables.split_char '\n' content) (Tables.split_char '\n' content)
    0 none [] [] false []

/-- get_sections, lines 536-538: the stored keys. -/
def get_sections (sections : List (Str × SectionInfo)) : List Str :=
  sections.map Prod.fst

/-- get_section, lines 540-556: exact key match, then substring match in
either direction, then leaf-name equality, else none. -/
def get_section (sections : List (Str × SectionInfo)) (section_name : Str) :
    Option SectionInfo :=
  match sections.find? (fun p => decide (p.1 = section_name)) with
  | some p => some p.2
  | none =>
    match sections.find? (fun p =>
        py_in (py_lower section_name) (py_lower p.1) ||
        py_in (py_lower p.1) (py_lower section_name)) with
    | some p => some p.2
    | none =>
      match sections.find? (fun p =>
          decide (py_lower p.2.name = py_lower section_name)) with
      | some p => some p.2
      | none => none

/-- get_section_structure, lines 558-595: none models the empty dictionary
returned on an unresolved name; a resolved name yields the stored section
record (the derived fields of the result dictionary are computed from it). -/
def get_section_structure (sections : List (Str × SectionInfo))
    (section_name : Str) : Option SectionInfo :=
  match get_section sections section_name with
  | none => none
  | some sec => some sec

theorem py_in_singleton (c : Char) (s : Str) : py_in [c] s = true ↔ c ∈ s := by
  induction s with
  | nil => simp [py_in, List.isEmpty]
  | cons b rest ih =>
    rw [py_in, Bool.or_eq_true, ih]
    constructor
    · intro h
      rcases h with h | h
      · simp only [List.isPrefixOf, Bool.and_eq_true, beq_iff_eq] at h
        exact h.1 ▸ List.mem_cons_self _ _
      · exact List.mem_cons_of_mem _ h
    · intro h
      rcases List.mem_cons.mp h with rfl | h
      · left
        simp [List.isPrefixOf]
      · exact Or.inr h

theorem valid_header_no_pipe (section_name : Str) (all_lines : List Str)
    (current_index : Nat)
    (h : is_valid_section_header section_name all_lines current_index = true) :
    '|' ∉ section_name := by
  intro hmem
  rw [is_valid_section_header] at h
  rw [if_pos ((py_in_singleton '|' section_name).mpr hmem)] at h
  cases h

theorem mem_dict_set_section (k : Str) (v : SectionInfo)
    (l : List (Str × SectionInfo)) (p : Str × SectionInfo)
    (hp : p ∈ dict_set_section k v l) : p = (k, v) ∨ p ∈ l := by
  induction l with
  | nil =>
    rw [dict_set_section, List.mem_singleton] at hp
    exact Or.inl hp
  | cons q rest ih =>
    cases q with
    | mk k1 v1 =>
      rw [dict_set_section] at hp
      by_cases hk : k1 = k
      · rw [if_pos hk] at hp
        rcases List.mem_cons.mp hp with rfl | hp2
        · exact Or.inl (by rw [hk])
        · exact Or.inr (List.mem_cons_of_mem _ hp2)
      · rw [if_neg hk] at hp
        rcases List.mem_cons.mp hp with rfl | hp2
        · exact Or.inr (List.mem_cons_self _ _)
        · rcases ih hp2 with h | h
          · exact Or.inl h
          · exact Or.inr (List.mem_cons_of_mem _ h)

theorem save_section_no_pipe (sections : List (Str × SectionInfo))
    (section_path : List Str) (section_content : List Str)
    (hpath : ∀ part ∈ section_path, '|' ∉ part)
    (hsec : ∀ p ∈ sections, ∀ part ∈ p.2.path, '|' ∉ part) :
    ∀ p ∈ save_section sections section_path section_content,
      ∀ part ∈ p.2.path, '|' ∉ part := by
  intro p hp
  rcases mem_dict_set_section _ _ _ p hp with rfl | hp2
  · exact hpath
  · exact hsec p hp2

theorem new_path_no_pipe (section_path : List Str) (section_name : Str)
    (header_level : Nat) (hpath : ∀ part ∈ section_path, '|' ∉ part)
    (hname : '|' ∉ section_name) :
    ∀ part ∈ (if header_level ≤ section_path.length then
        section_path.take (header_level - 1)
      else section_path) ++ [section_name], '|' ∉ part := by
  intro part hpart
  rcases List.mem_append.mp hpart with h | h
  · by_cases hle : header_level ≤ section_path.length
    · rw [if_pos hle] at h
      exact hpath part ((List.take_sublist _ _).mem h)
    · rw [if_neg hle] at h
      exact hpath part h
  · rw [List.mem_singleton] at h
    rw [h]
    exact hname

theorem parse_go_no_pipe (all_lines : List Str) :
    ∀ (rem : List Str) (i : Nat) (cur : Option Str) (content : List Str)
      (path : List Str) (it : Bool) (sections : List (Str × SectionInfo)),
    (∀ part ∈ path, '|' ∉ part) →
    (∀ p ∈ sections, ∀ part ∈ p.2.path, '|' ∉ part) →
    ∀ p ∈ parse_go all_lines rem i cur content path it sections,
      ∀ part ∈ p.2.path, '|' ∉ part := by
  intro rem
  induction rem with
  | nil =>
    intro i cur content path it sections hpath hsec p hp
    rw [parse_go] at hp
    by_cases hc : cur.isSome = true
    · rw [if_pos hc] at hp
      exact save_section_no_pipe sections path content hpath hsec p hp
    · rw [if_neg hc] at hp
      exact hsec p hp
  | cons line rest ih =>
    intro i cur content path it sections hpath hsec p hp
    rw [parse_go] at hp
    split at hp
    · exact ih _ _ _ _ _ _ hpath hsec p hp
    · split at hp
      · exact ih _ _ _ _ _ _ hpath hsec p hp
      · split at hp
        · rename_i header_level body heq
          split at hp
          · rename_i hvalid
            refine ih _ _ _ _ _ _ ?_ ?_ p hp
            · exact new_path_no_pipe path (py_strip body) header_level hpath
                (valid_header_no_pipe _ all_lines i hvalid)
            · by_cases hc : cur.isSome = true
              · rw [if_pos hc]
                exact save_section_no_pipe sections path content hpath hsec
              · rw [if_neg hc]
                exact hsec
          · exact ih _ _ _ _ _ _ hpath hsec p hp
        · split at hp
          · rename_i section_name header_level heq
            split at hp
            · rename_i hvalid
              refine ih _ _ _ _ _ _ ?_ ?_ p hp
              · exact new_path_no_pipe path section_name header_level hpath
                  (valid_header_no_pipe _ all_lines i hvalid)
              · by_cases hc : cur.isSome = true
                · rw [if_pos hc]
                  exact save_section_no_pipe sections path content hpath hsec
                · rw [if_neg hc]
                  exact hsec
            · exact ih _ _ _ _ _ _ hpath hsec p hp
          · exact ih _ _ _ _ _ _ hpath hsec p hp

/-- C5: the structure parser never registers a table row as a section: every
registered section-path component is pipe-free (table rows of pipe-delimited
tables always contain a pipe, candidate headers with a pipe are rejected,
and table rows are skipped by the in-table state), and the concrete
synthetic document whose table starts with a capitalized all-caps phrase
yields exactly one section, the real heading. -/
theorem header_validation_soundness :
    (∀ content : Str, ∀ p ∈ parse_markdown_template content,
      ∀ part ∈ p.2.path, '|' ∉ part) ∧
    parse_markdown_template
        ("# Study Overview\nThis section describes the study.\n\n| DOSE RESPONSE DATA | Values |\n|---|---|\n| 5 | 10 |\n\nTrailing text here.").toList
      = [("Study Overview".toList,
          { name := "Study Overview".toList
            path := ["Study Overview".toList]
            level := 1
            content := ("This section describes the study.\n\n| DOSE RESPONSE DATA | Values |\n|---|---|\n| 5 | 10 |\n\nTrailing text here.").toList })] := by
  constructor
  · intro content p hp
    refine parse_go_no_pipe _ _ 0 none [] [] false [] ?_ ?_ p hp
    · intro part hpart
      exact absurd hpart (List.not_mem_nil part)
    · intro q hq
      exact absurd hq (List.not_mem_nil q)
  · decide

/-- Witness for C5: the single registered path component of the synthetic
document contains no pipe. -/
theorem header_validation_soundness_witness :
    '|' ∉ ("Study Overview").toList :=
  header_validation_soundness.1
    ("# Study Overview\nThis section describes the study.\n\n| DOSE RESPONSE DATA | Values |\n|---|---|\n| 5 | 10 |\n\nTrailing text here.").toList
    _ (by rw [header_validation_soundness.2]; exact List.mem_singleton_self _)
    ("Study Overview").toList (by decide)

/-- C6: section lookup resolves by exact key first, then substring match in
either direction on the joined path keys, then leaf-name equality, and an
unresolved name yields the empty structure (none) instead of an error; for a
template with section Alpha at level 1 and subsection Beta at level 2,
get_sections returns both joined paths and get_section_structure "Beta"
resolves to the Alpha/Beta section. -/
theorem section_lookup_roundtrip :
    (∀ (sections : List (Str × SectionInfo)) (name : Str) (q : Str × SectionInfo),
      sections.find? (fun p => decide (p.1 = name)) = some q →
      get_section sections name = some q.2) ∧
    (∀ (sections : List (Str × SectionInfo)) (name : Str)
        (q : Str × SectionInfo),
      sections.find? (fun p => decide (p.1 = name)) = none →
      sections.find? (fun p =>
        py_in (py_lower name) (py_lower p.1) ||
        py_in (py_lower p.1) (py_lower name)) = none →
      sections.find? (fun p =>
        decide (py_lower p.2.name = py_lower name)) = some q →
      get_section sections name = some q.2) ∧
    (∀ (sections : List (Str × SectionInfo)) (name : Str),
      get_section sections name = none →
      get_section_structure sections name = none) ∧
    get_sections
        (parse_markdown_template
          ("# Alpha\nIntro text here\n\n## Beta\nDetail text here").toList)
      = ["Alpha".toList, "Alpha/Beta".toList] ∧
    get_section_structure
        (parse_markdown_template
          ("# Alpha\nIntro text here\n\n## Beta\nDetail text here").toList)
        ("Beta".toList)
      = some { name := "Beta".toList
               path := ["Alpha".toList, "Beta".toList]
               level := 2
               content := "Detail text here".toList } := by
  refine ⟨?_, ?_, ?_, ?_, ?_⟩
  · intro sections name q h
    simp only [get_section, h]
  · intro sections name q h1 h2 h3
    simp only [get_section, h1, h2, h3]
  · intro sections name h
    simp only [get_section_structure, h]
  · decide
  · decide

/-- Witness for C6: the exact-key stage at a concrete one-entry store. -/
theorem section_lookup_roundtrip_witness :
    get_section
        [("K".toList,
          { name := "K".toList, path := ["K".toList], level := 1,
            content := [] })] ("K".toList)
      = some { name := "K".toList, path := ["K".toList], level := 1,
               content := [] } :=
  section_lookup_roundtrip.1
    [("K".toList,
      { name := "K".toList, path := ["K".toList], level := 1, content := [] })]
    ("K".toList)
    ("K".toList,
      { name := "K".toList, path := ["K".toList], level := 1, content := [] })
    (by decide)

end TemplateParse

/-! ## Smart chunker (chunker.py).  The token counter models the fallback
estimate of _count_tokens lines 307-315 (the tiktoken encoder is an external
dependency); all other functions follow the source line by line with the
default configuration passed explicitly. -/

namespace Chunker

/-- _count_tokens lines 307-315, fallback branch: one token per four
characters, rounded down. -/
def count_tokens (text : Str) : Nat := text.length / 4

/-- One parsed table as produced by document_parser: its text and the
optional page / table_index metadata (absent for DOCX tables). -/
structure TableInfo where
  text : Str
  page : Option Nat
  table_index : Option Nat
  deriving DecidableEq

/-- One extracted variable (key/value pair). -/
structure VarInfo where
  key : Str
  value : Str
  deriving DecidableEq

/-- Document metadata; only file_name is read by the chunker (chunk id
generation, line 87), absent keys fall back to "doc". -/
structure DocMeta where
  file_name : Option Str
  deriving DecidableEq

/-- A parsed document as consumed by chunk_document lines 51-54; vars holds
the document's variables key. -/
structure Document where
  text : Str
  metadata : DocMeta
  tables : List TableInfo
  vars : List VarInfo
  deriving DecidableEq

/-- SmartChunker configuration (init lines 21-29). -/
structure ChunkerConfig where
  chunk_size : Nat
  chunk_overlap : Nat
  max_chunk_size : Nat
  deriving DecidableEq

/-- One produced chunk dictionary; table_page/table_index model the
table_metadata sub-dictionary and variable_count the variables key, none
standing for an absent key. -/
structure Chunk where
  text : Str
  metadata : DocMeta
  chunk_type : Str
  table_page : Option Nat := none
  table_index : Option Nat := none
  variable_count : Option Nat := none
  chunk_index : Nat := 0
  chunk_id : Str := []
  token_count : Nat := 0
  deriving DecidableEq

/-- Row loop of _chunk_tables lines 112-136, at the level of row groups:
each emitted group becomes one chunk whose text is the group joined with
newlines. -/
def table_rows_go (chunk_size : Nat) : List Str → List Str → Nat → List (List Str)
  | [], current_chunk, _ =>
    if current_chunk.isEmpty then [] else [current_chunk]
  | row :: rest, current_chunk, current_size =>
    let row_size := count_tokens row
    if decide (chunk_size < current_size + row_size) && !current_chunk.isEmpty then
      current_chunk :: table_rows_go chunk_size rest [row] row_size
    else
      table_rows_go chunk_size rest (current_chunk ++ [row]) (current_size + row_size)

/-- _chunk_tables lines 92-138: a table with empty text is skipped entirely;
a table fitting max_chunk_size becomes one table chunk; an oversized table
is split by rows into table_partial chunks (whose table_metadata is the
absent key lookup table.get of line 122, hence empty). -/
def chunk_tables (cfg : ChunkerConfig) : List TableInfo → DocMeta → List Chunk
  | [], _ => []
  | table :: rest, metadata =>
    (if table.text.isEmpty then []
     else if count_tokens table.text ≤ cfg.max_chunk_size then
       [{ text := table.text, metadata := metadata,
          chunk_type := "table".toList,
          table_page := table.page, table_index := table.table_index }]
     else
       (table_rows_go cfg.chunk_size (Tables.split_char '\n' table.text)
           [] 0).map
         (fun g => { text := List.intercalate ['\n'] g, metadata := metadata,
                     chunk_type := "table_partial".toList }))
      ++ chunk_tables cfg rest metadata

/-- The f-string of lines 150 and 156. -/
def var_text (v : VarInfo) : Str := v.key ++ ':' :: ' ' :: v.value

/-- Grouping loop of _chunk_variables lines 149-165. -/
def vars_go (chunk_size : Nat) : List VarInfo → List VarInfo → Nat → List (List VarInfo)
  | [], current_group, _ =>
    if current_group.isEmpty then [] else [current_group]
  | v :: rest, current_group, current_size =>
    let var_size := count_tokens (var_text v)
    if decide (chunk_size < current_size + var_size) && !current_group.isEmpty then
      current_group :: vars_go chunk_size rest [v] var_size
    else
      vars_go chunk_size rest (current_group ++ [v]) (current_size + var_size)

/-- _chunk_variables lines 140-176. -/
def chunk_variables (cfg : ChunkerConfig) (vs : List VarInfo)
    (metadata : DocMeta) : List Chunk :=
  if vs.isEmpty then []
  else
    (vars_go cfg.chunk_size vs [] 0).map (fun g =>
      { text := List.intercalate ['\n'] (g.map var_text),
        metadata := metadata, chunk_type := "variables".toList,
        variable_count := some g.length })

/-- Python str.replace(pat, "") for the non-empty marker patterns of
_clean_text_for_chunking: delete every leftmost occurrence. -/
def replace_seq (pat : Str) : Str → Str
  | [] => []
  | c :: rest =>
    if h : pat.isPrefixOf (c :: rest) = true ∧ pat ≠ [] then
      replace_seq pat ((c :: rest).drop pat.length)
    else c :: replace_seq pat rest
  termination_by s => s.length
  decreasing_by
    · have h1 : 1 ≤ pat.length := by
        cases pat with
        | nil => exact absurd rfl h.2
        | cons a b => simp
      simp only [List.length_drop, List.length_cons]
      omega
    · simp only [List.length_cons]
      omega

/-- The table-marker f-string of lines 300-303, with the 0 defaults of the
dictionary lookups. -/
def table_marker (table : TableInfo) : Str :=
  "--- Table ".toList ++ Nat.toDigits 10 (table.table_index.getD 0 + 1) ++
    " on Page ".toList ++ Nat.toDigits 10 (table.page.getD 0) ++
    " ---".toList

/-- _clean_text_for_chunking lines 293-305. -/
def clean_text_for_chunking (text : Str) (tables : List TableInfo) : Str :=
  tables.foldl (fun cleaned table =>
    if table.text.isEmpty then cleaned
    else replace_seq (table_marker table) cleaned) text

/-- Matcher for the page-break pattern of line 187 at the start of s: the
literal prefix, a non-empty greedy digit run and the literal suffix; on
success the remainder after the match is returned.  A shorter digit run
would leave a digit where the pattern expects a space, so there is no
backtracking.  pb_digits is the greedy digit run after the literal
prefix. -/
def pb_digits (s : Str) : Str := (s.drop 9).takeWhile Char.isDigit

def page_break_match (s : Str) : Option Str :=
  if ("--- Page ".toList).isPrefixOf s then
    if decide (pb_digits s ≠ []) &&
        (" ---".toList).isPrefixOf ((s.drop 9).drop (pb_digits s).length) then
      some (((s.drop 9).drop (pb_digits s).length).drop 4)
    else none
  else none

theorem page_break_match_length (s r : Str) (h : page_break_match s = some r) :
    r.length < s.length := by
  rw [page_break_match] at h
  split at h
  · split at h
    · rename_i h1 h2
      have h9 : 9 ≤ s.length := by
        have hp := (List.isPrefixOf_iff_prefix.mp h1).length_le
        simpa using hp
      have hr : r = ((s.drop 9).drop (pb_digits s).length).drop 4 := by
        cases h
        rfl
      have hlen : r.length = s.length - (9 + (pb_digits s).length + 4) := by
        rw [hr]
        simp [List.length_drop]
      omega
    · cases h
  · cases h

/-- Page-break splitter (re.split of line 187): scan left to right, cut at
every match, continue after it. -/
def split_pagebreak_go : Str → Str → List Str
  | acc, [] => [acc.reverse]
  | acc, c :: rest =>
    match h : page_break_match (c :: rest) with
    | some r => acc.reverse :: split_pagebreak_go [] r
    | none => split_pagebreak_go (c :: acc) rest
  termination_by _ s => s.length
  decreasing_by
    · exact page_break_match_length _ _ h
    · simp only [List.length_cons]
      omega

/-- Index of the first newline of t at position k or later. -/
def first_nl_from (t : Str) (k : Nat) : Option Nat :=
  match List.findIdx? (fun x => decide (x = '\n')) (t.drop k) with
  | some off => some (k + off)
  | none => none

/-- Backtracking loop for the greedy whitespace of the header pattern of
line 193: widths w, w-1, ..., 1 are tried in order; a width succeeds if the
character right after it exists and is not a newline (the lazy dot-run can
start there) and a later newline closes the match; the index of that
closing newline in t is returned. -/
def try_ws_width (t : Str) (j : Nat) : Nat → Option Nat
  | 0 => none
  | w + 1 =>
    let k := j + (w + 1)
    match t.get? k with
    | some c =>
      if c = '\n' then try_ws_width t j w
      else
        match first_nl_from t (k + 1) with
        | some p => some p
        | none => try_ws_width t j w
    | none => try_ws_width t j w

/-- Header matcher at the start of s for the pattern of line 193 (a
newline, then the captured group of one to three hashes, whitespace and a
lazy non-empty dot-run, then a newline): returns the captured group and the
remainder after the closing newline.  A hash run longer than three fails
outright because the following whitespace class cannot match a hash.
hdr_hashes is the hash run at the start of the tail. -/
def hdr_hashes (t : Str) : Nat :=
  (t.takeWhile (fun c => decide (c = '#'))).length

/-- Length of the whitespace run after the hash run. -/
def hdr_ws (t : Str) : Nat :=
  ((t.drop (hdr_hashes t)).takeWhile py_is_space).length

def hdr_match : Str → Option (Str × Str)
  | [] => none
  | c :: t =>
    if c = '\n' then
      if decide (1 ≤ hdr_hashes t) && decide (hdr_hashes t ≤ 3) then
        match try_ws_width t (hdr_hashes t) (hdr_ws t) with
        | some p => some (t.take p, t.drop (p + 1))
        | none => none
      else none
    else none

theorem hdr_match_rest_length (s g r : Str) (h : hdr_match s = some (g, r)) :
    r.length < s.length := by
  cases s with
  | nil =>
    rw [hdr_match] at h
    cases h
  | cons c t =>
    rw [hdr_match] at h
    split at h
    · split at h
      · split at h
        · rename_i p hp
          have hr : r = t.drop (p + 1) := by
            cases h
            rfl
          have h2 : r.length ≤ t.length := by
            rw [hr]
            simp [List.length_drop]
          simp only [List.length_cons]
          omega
        · cases h
      · cases h
    · cases h

/-- Header splitter with the single capture group included in the result
list, as re.split does for a pattern with a group (line 193). -/
def split_hdr_go : Str → Str → List Str
  | acc, [] => [acc.reverse]
  | acc, c :: rest =>
    match h : hdr_match (c :: rest) with
    | some (g, r) => acc.reverse :: g :: split_hdr_go [] r
    | none => split_hdr_go (c :: acc) rest
  termination_by _ s => s.length
  decreasing_by
    · exact hdr_match_rest_length _ _ _ h
    · simp only [List.length_cons]
      omega

/-- Recombination loop of _split_into_sections lines 196-200: join each
leading text piece with its following header, keep a trailing odd piece. -/
def recombine : List Str → List Str
  | a :: b :: rest => (a ++ '\n' :: b) :: recombine rest
  | [a] => [a]
  | [] => []

/-- _split_into_sections lines 178-205. -/
def split_into_sections (text : Str) : List Str :=
  let sections := split_pagebreak_go [] text
  let final_sections := sections.foldl (fun acc sec =>
    let subsections := split_hdr_go [] sec
    if 1 < subsections.length then acc ++ recombine subsections
    else acc ++ [sec]) []
  (final_sections.map py_strip).filter (fun s => !s.isEmpty)

theorem split_seq_go_len_le (d : Char) (ds : Str) :
    ∀ (n : Nat) (s acc : Str), s.length ≤ n →
    ∀ part ∈ split_seq_go d ds s acc, part.length ≤ acc.length + s.length := by
  intro n
  induction n with
  | zero =>
    intro s acc hs part hp
    have hs0 : s = [] := List.eq_nil_of_length_eq_zero (Nat.le_zero.mp hs)
    subst hs0
    rw [split_seq_go, List.mem_singleton] at hp
    simp [hp]
  | succ n ih =>
    intro s acc hs part hp
    cases s with
    | nil =>
      rw [split_seq_go, List.mem_singleton] at hp
      simp [hp]
    | cons c rest =>
      rw [split_seq_go] at hp
      split at hp
      · rcases List.mem_cons.mp hp with rfl | hp2
        · simp only [List.length_reverse, List.length_cons]
          omega
        · have hlen : (rest.drop ds.length).length ≤ n := by
            simp only [List.length_drop]
            simp only [List.length_cons] at hs
            omega
          have := ih (rest.drop ds.length) [] hlen part hp2
          simp only [List.length_nil, List.length_drop] at this
          simp only [List.length_cons]
          omega
      · have hlen : rest.length ≤ n := by
          simp only [List.length_cons] at hs
          omega
        have := ih rest (c :: acc) hlen part hp
        simp only [List.length_cons] at this ⊢
        omega

theorem split_seq_go_len_lt (d : Char) (ds : Str) :
    ∀ (n : Nat) (s acc : Str), s.length ≤ n →
    2 ≤ (split_seq_go d ds s acc).length →
    ∀ part ∈ split_seq_go d ds s acc, part.length + 1 ≤ acc.length + s.length := by
  intro n
  induction n with
  | zero =>
    intro s acc hs h2 part hp
    have hs0 : s = [] := List.eq_nil_of_length_eq_zero (Nat.le_zero.mp hs)
    subst hs0
    rw [split_seq_go] at h2
    simp at h2
  | succ n ih =>
    intro s acc hs h2 part hp
    cases s with
    | nil =>
      rw [split_seq_go] at h2
      simp at h2
    | cons c rest =>
      rw [split_seq_go] at hp h2
      split at hp
      · rcases List.mem_cons.mp hp with rfl | hp2
        · simp only [List.length_reverse, List.length_cons]
          omega
        · have hlen : (rest.drop ds.length).length ≤ n := by
            simp only [List.length_drop]
            simp only [List.length_cons] at hs
            omega
          have := split_seq_go_len_le d ds n (rest.drop ds.length) [] hlen part hp2
          simp only [List.length_nil, List.length_drop] at this
          simp only [List.length_cons]
          omega
      · rename_i hnp
        have hlen : rest.length ≤ n := by
          simp only [List.length_cons] at hs
          omega
        rw [if_neg hnp] at h2
        have := ih rest (c :: acc) hlen h2 part hp
        simp only [List.length_cons] at this ⊢
        omega

/-- The separator preference list of init lines 32-39. -/
def separators : List Str :=
  ["\n\n\n".toList, "\n\n".toList, "\n".toList, ". ".toList, " ".toList, []]

/-- text.split(separator) for a non-empty separator, character list for the
empty one (lines 233-237). -/
def sep_splits (sep : Str) (text : Str) : List Str :=
  if sep.isEmpty then text.map (fun c => [c]) else split_seq sep text

/-- The for-loop of line 232 up to its first separator producing more than
one split (the loop returns inside its body, line 279). -/
def first_sep_go (text : Str) : List Str → Option (Str × List Str)
  | [] => none
  | sep :: rest =>
    if 1 < (sep_splits sep text).length then some (sep, sep_splits sep text)
    else first_sep_go text rest

def first_sep (text : Str) : Option (Str × List Str) :=
  first_sep_go text separators

theorem first_sep_go_bound (text : Str) :
    ∀ (seps : List Str) (sep : Str) (splits : List Str),
    first_sep_go text seps = some (sep, splits) →
    1 < splits.length ∧ ∀ p ∈ splits, p.length < text.length := by
  intro seps
  induction seps with
  | nil =>
    intro sep splits h
    cases h
  | cons sep0 rest ih =>
    intro sep splits h
    rw [first_sep_go] at h
    split at h
    · rename_i hgt
      have hsp : splits = sep_splits sep0 text := by
        cases h
        rfl
      subst hsp
      refine ⟨hgt, ?_⟩
      by_cases hne : sep0.isEmpty = true
      · rw [sep_splits, if_pos hne] at hgt ⊢
        intro p hp
        rcases List.mem_map.mp hp with ⟨c, _, rfl⟩
        simp only [List.length_map] at hgt
        simp only [List.length_cons, List.length_nil]
        omega
      · rw [sep_splits, if_neg hne] at hgt ⊢
        intro p hp
        cases hsep : sep0 with
        | nil => simp [hsep, List.isEmpty] at hne
        | cons d ds =>
          rw [hsep, split_seq] at hgt hp
          have := split_seq_go_len_lt d ds text.length text [] le_rfl hgt p hp
          simp only [List.length_nil] at this
          omega
    · exact ih sep splits h

theorem first_sep_bound (text sep : Str) (splits : List Str)
    (h : first_sep text = some (sep, splits)) :
    1 < splits.length ∧ ∀ p ∈ splits, p.length < text.length :=
  first_sep_go_bound text separators sep splits h

/-- Longest element length of a list of strings. -/
def max_len (l : List Str) : Nat := l.foldr (fun s a => max s.length a) 0

theorem mem_le_max_len (l : List Str) (x : Str) (hx : x ∈ l) :
    x.length ≤ max_len l := by
  induction l with
  | nil => cases hx
  | cons a rest ih =>
    rcases List.mem_cons.mp hx with rfl | hx2
    · exact le_max_left _ _
    · exact le_trans (ih hx2) (le_max_right _ _)

theorem max_len_lt (l : List Str) (b : Nat) (hb : 0 < b)
    (h : ∀ x ∈ l, x.length < b) : max_len l < b := by
  induction l with
  | nil => exact hb
  | cons a rest ih =>
    have h1 : a.length < b := h a (List.mem_cons_self _ _)
    have h2 : max_len rest < b := ih (fun x hx => h x (List.mem_cons_of_mem _ hx))
    exact max_lt h1 h2

/-- The character-range fallback of lines 282-287.  Python's range raises
for a zero step; a zero chunk_size is mapped to the empty list, and the
fallback is only reachable when no separator splits the text, which forces
a text of at most one character and hence a token count of zero, never
exceeding any chunk_size. -/
def char_fallback (chunk_size : Nat) : Str → List Str
  | [] => []
  | c :: rest =>
    if h : chunk_size = 0 then []
    else
      (if (py_strip ((c :: rest).take chunk_size)).isEmpty then []
       else [(c :: rest).take chunk_size])
        ++ char_fallback chunk_size ((c :: rest).drop chunk_size)
  termination_by s => s.length
  decreasing_by
    simp only [List.length_drop, List.length_cons]
    omega

mutual

/-- _recursive_split_text lines 221-287 (the separator for-loop is
first_sep; its per-separator body is rst_process). -/
def recursive_split_text (cfg : ChunkerConfig) (text : Str) : List Str :=
  if text.isEmpty then []
  else if count_tokens text ≤ cfg.chunk_size then [text]
  else
    match h : first_sep text with
    | some (sep, splits) =>
      (rst_process cfg sep splits [] [] 0).filter
        (fun c => !(py_strip c).isEmpty)
    | none => char_fallback cfg.chunk_size text
  termination_by (text.length, 2, 0)
  decreasing_by
    rcases first_sep_bound text sep splits h with ⟨h2, hlt⟩
    have hpos : 0 < text.length := by
      rcases splits with _ | ⟨p, r⟩
      · simp at h2
      · have := hlt p (List.mem_cons_self _ _)
        omega
    have hmax : max_len splits + 1 ≤ text.length :=
      max_len_lt splits text.length hpos hlt
    rcases lt_or_eq_of_le hmax with hm | hm
    · exact Prod.Lex.left _ _ hm
    · rw [hm]
      exact Prod.Lex.right _ (Prod.Lex.left _ _ (by omega))

/-- The split-accumulation loop of lines 245-276, including the
separator-append quirk of line 246 (every split gets the separator
appended, even the last) and the single-element overlap carry of
lines 263-266. -/
def rst_process (cfg : ChunkerConfig) (sep : Str) :
    List Str → List Str → List Str → Nat → List Str
  | [], chunks, current_chunk, _ =>
    chunks ++ (if current_chunk.isEmpty then []
               else [List.intercalate sep current_chunk])
  | split :: rest, chunks, current_chunk, current_length =>
    if decide (cfg.chunk_size
        < count_tokens (if sep.isEmpty then split else split ++ sep)) then
      rst_process cfg sep rest
        ((if current_chunk.isEmpty then chunks
          else chunks ++ [List.intercalate sep current_chunk])
          ++ recursive_split_text cfg split) [] 0
    else if decide (cfg.chunk_size < current_length
          + count_tokens (if sep.isEmpty then split else split ++ sep))
        && !current_chunk.isEmpty then
      if 0 < cfg.chunk_overlap then
        rst_process cfg sep rest
          (chunks ++ [List.intercalate sep current_chunk])
          [List.intercalate sep
              (current_chunk.drop (current_chunk.length - 1)),
            (if sep.isEmpty then split else split ++ sep)]
          (count_tokens (List.intercalate sep
              (current_chunk.drop (current_chunk.length - 1)))
            + count_tokens (if sep.isEmpty then split else split ++ sep))
      else
        rst_process cfg sep rest
          (chunks ++ [List.intercalate sep current_chunk])
          [(if sep.isEmpty then split else split ++ sep)]
          (count_tokens (if sep.isEmpty then split else split ++ sep))
    else
      rst_process cfg sep rest chunks
        (current_chunk ++ [(if sep.isEmpty then split else split ++ sep)])
        (current_length
          + count_tokens (if sep.isEmpty then split else split ++ sep))
  termination_by splits chunks current_chunk current_length =>
    (max_len splits + 1, 1, splits.length)
  decreasing_by
    · have hle : split.length ≤ max_len (split :: rest) := le_max_left _ _
      exact Prod.Lex.left _ _ (by omega)
    · have hle : max_len rest ≤ max_len (split :: rest) := le_max_right _ _
      rcases lt_or_eq_of_le hle with hm | hm
      · exact Prod.Lex.left _ _ (by omega)
      · rw [hm]
        exact Prod.Lex.right _ (Prod.Lex.right _
          (by simp only [List.length_cons]; omega))
    · have hle : max_len rest ≤ max_len (split :: rest) := le_max_right _ _
      rcases lt_or_eq_of_le hle with hm | hm
      · exact Prod.Lex.left _ _ (by omega)
      · rw [hm]
        exact Prod.Lex.right _ (Prod.Lex.right _
          (by simp only [List.length_cons]; omega))
    · have hle : max_len rest ≤ max_len (split :: rest) := le_max_right _ _
      rcases lt_or_eq_of_le hle with hm | hm
      · exact Prod.Lex.left _ _ (by omega)
      · rw [hm]
        exact Prod.Lex.right _ (Prod.Lex.right _
          (by simp only [List.length_cons]; omega))
    · have hle : max_len rest ≤ max_len (split :: rest) := le_max_right _ _
      rcases lt_or_eq_of_le hle with hm | hm
      · exact Prod.Lex.left _ _ (by omega)
      · rw [hm]
        exact Prod.Lex.right _ (Prod.Lex.right _
          (by simp only [List.length_cons]; omega))

end

/-- _should_chunk_section lines 289-291. -/
def should_chunk_section (cfg : ChunkerConfig) (sec : Str) : Bool :=
  decide (cfg.chunk_size < count_tokens sec)

/-- _chunk_section lines 207-219. -/
def chunk_section (cfg : ChunkerConfig) (sec : Str) (metadata : DocMeta) :
    List Chunk :=
  (recursive_split_text cfg sec).map (fun t =>
    { text := t, metadata := metadata, chunk_type := "text".toList })

/-- The chunk-id f-string of line 87, with the "doc" default for a missing
file name. -/
def chunk_id_of (file_name : Option Str) (idx : Nat) : Str :=
  file_name.getD ("doc".toList) ++ "_chunk_".toList ++ Nat.toDigits 10 idx

/-- The enumerate loop of lines 85-88: assign consecutive indices, derived
ids and the token count of each chunk's text. -/
def assign_go (file_name : Option Str) : Nat → List Chunk → List Chunk
  | _, [] => []
  | idx, c :: rest =>
    { c with
        chunk_index := idx
        chunk_id := chunk_id_of file_name idx
        token_count := count_tokens c.text }
      :: assign_go file_name (idx + 1) rest

/-- chunk_document lines 41-90: table chunks, then variable chunks, then
per-section chunks of the cleaned main text, then index/id/token
assignment. -/
def chunk_document (cfg : ChunkerConfig) (document : Document) : List Chunk :=
  assign_go document.metadata.file_name 0
    (chunk_tables cfg document.tables document.metadata
      ++ chunk_variables cfg document.vars document.metadata
      ++ (split_into_sections
            (clean_text_for_chunking document.text document.tables)).foldl
          (fun acc sec =>
            if should_chunk_section cfg sec then
              acc ++ chunk_section cfg sec document.metadata
            else
              acc ++ [{ text := sec, metadata := document.metadata,
                        chunk_type := "section".toList }]) [])

theorem split_char_intercalate_plain (sep : Char) (groups : List Str)
    (h : ∀ g ∈ groups, ∀ c ∈ g, c ≠ sep) (hne : groups ≠ []) :
    Tables.split_char sep (List.intercalate [sep] groups) = groups := by
  induction groups with
  | nil => exact absurd rfl hne
  | cons g rest ih =>
    cases rest with
    | nil =>
      have h1 : List.intercalate [sep] [g] = g := by
        simp [List.intercalate]
      rw [h1, Tables.split_char_sepfree sep g (h g (List.mem_cons_self _ _))]
    | cons g2 t =>
      rw [Tables.intercalate_cons₂]
      have h1 : g ++ [sep] ++ List.intercalate [sep] (g2 :: t)
          = g ++ sep :: List.intercalate [sep] (g2 :: t) := by
        simp
      rw [h1, Tables.split_char_append sep g _ (h g (List.mem_cons_self _ _)),
        ih (fun x hx => h x (List.mem_cons_of_mem _ hx)) (List.cons_ne_nil _ _)]

theorem split_char_mem_no_sep (sep : Char) :
    ∀ (s : Str), ∀ p ∈ Tables.split_char sep s, sep ∉ p := by
  intro s
  induction s with
  | nil =>
    intro p hp
    rw [Tables.split_char, List.mem_singleton] at hp
    subst hp
    exact List.not_mem_nil sep
  | cons c rest ih =>
    intro p hp
    rw [Tables.split_char] at hp
    by_cases hc : c = sep
    · rw [if_pos hc] at hp
      rcases List.mem_cons.mp hp with rfl | hp2
      · exact List.not_mem_nil sep
      · exact ih p hp2
    · rw [if_neg hc] at hp
      cases hrec : Tables.split_char sep rest with
      | nil =>
        rw [hrec, List.mem_singleton] at hp
        subst hp
        intro hmem
        rcases List.mem_cons.mp hmem with rfl | hm2
        · exact hc rfl
        · exact absurd hm2 (List.not_mem_nil sep)
      | cons piece pieces =>
        rw [hrec] at hp
        rcases List.mem_cons.mp hp with rfl | hp2
        · intro hmem
          rcases List.mem_cons.mp hmem with rfl | hm2
          · exact hc rfl
          · exact ih piece (hrec ▸ List.mem_cons_self _ _) hm2
        · exact ih p (hrec ▸ List.mem_cons_of_mem _ hp2)

theorem table_rows_go_join (chunk_size : Nat) :
    ∀ (rows current_chunk : List Str) (current_size : Nat),
    (table_rows_go chunk_size rows current_chunk current_size).flatten
      = current_chunk ++ rows := by
  intro rows
  induction rows with
  | nil =>
    intro cc csize
    rw [table_rows_go]
    by_cases hc : cc.isEmpty = true
    · rw [if_pos hc, List.append_nil]
      simp [List.isEmpty_iff] at hc
      simp [hc]
    · rw [if_neg hc]
      simp
  | cons row rest ih =>
    intro cc csize
    rw [table_rows_go]
    split
    · simp [ih]
    · simp [ih]

theorem table_rows_go_ne_nil (chunk_size : Nat) :
    ∀ (rows current_chunk : List Str) (current_size : Nat),
    ∀ g ∈ table_rows_go chunk_size rows current_chunk current_size,
      g ≠ [] := by
  intro rows
  induction rows with
  | nil =>
    intro cc csize g hg
    rw [table_rows_go] at hg
    by_cases hc : cc.isEmpty = true
    · rw [if_pos hc] at hg
      exact absurd hg (List.not_mem_nil g)
    · rw [if_neg hc, List.mem_singleton] at hg
      subst hg
      simpa [List.isEmpty_iff] using hc
  | cons row rest ih =>
    intro cc csize g hg
    rw [table_rows_go] at hg
    split at hg
    · rename_i hcond
      rcases List.mem_cons.mp hg with rfl | hg2
      · have := (Bool.and_eq_true _ _).mp hcond
        simpa [List.isEmpty_iff] using this.2
      · exact ih [row] _ g hg2
    · exact ih (cc ++ [row]) _ g hg

/-- C7 counterexample: a parsed document may contain a table whose extracted
text is empty (a PDF table whose every row is empty yields text "" but is
still recorded); its token count 0 is at most the configured maximum, yet
_chunk_tables skips it entirely and emits zero chunks, not exactly one. -/
theorem table_atomicity_counterexample :
    count_tokens ([] : Str) ≤ 1500 ∧
    chunk_tables { chunk_size := 1000, chunk_overlap := 200, max_chunk_size := 1500 }
      [{ text := [], page := some 1, table_index := some 0 }]
      { file_name := none } = [] :=
  ⟨by decide, rfl⟩

theorem map_split_mk (metadata : DocMeta) :
    ∀ (groups : List (List Str)),
    (∀ g ∈ groups, Tables.split_char '\n' (List.intercalate ['\n'] g) = g) →
    ((groups.map (fun g =>
        ({ text := List.intercalate ['\n'] g
           metadata := metadata
           chunk_type := "table_partial".toList } : Chunk))).map
      (fun c => Tables.split_char '\n' c.text)) = groups := by
  intro groups
  induction groups with
  | nil =>
    intro h
    rfl
  | cons g rest ih =>
    intro h
    simp only [List.map_cons]
    rw [ih (fun x hx => h x (List.mem_cons_of_mem _ hx))]
    show Tables.split_char '\n' (List.intercalate ['\n'] g) :: rest = g :: rest
    rw [h g (List.mem_cons_self _ _)]

/-- C7 (amended): every table with non-empty text whose token count is at
most max_chunk_size is emitted as exactly one table chunk carrying the
table text unchanged; an oversized table is split only at row boundaries:
the newline-splits of the emitted table_partial chunks concatenate back to
the newline-split of the original table text, so no row is ever cut. -/
theorem table_atomicity_amended :
    (∀ (cfg : ChunkerConfig) (metadata : DocMeta) (table : TableInfo),
      table.text ≠ [] →
      count_tokens table.text ≤ cfg.max_chunk_size →
      chunk_tables cfg [table] metadata
        = [{ text := table.text
             metadata := metadata
             chunk_type := "table".toList
             table_page := table.page
             table_index := table.table_index }]) ∧
    (∀ (cfg : ChunkerConfig) (metadata : DocMeta) (table : TableInfo),
      table.text ≠ [] →
      cfg.max_chunk_size < count_tokens table.text →
      ((chunk_tables cfg [table] metadata).map
          (fun c => Tables.split_char '\n' c.text)).flatten
        = Tables.split_char '\n' table.text ∧
      ∀ c ∈ chunk_tables cfg [table] metadata,
        c.chunk_type = "table_partial".toList) := by
  constructor
  · intro cfg metadata table h1 h2
    rw [chunk_tables, chunk_tables]
    rw [if_neg (by simpa [List.isEmpty_iff] using h1), if_pos h2,
      List.append_nil]
  · intro cfg metadata table h1 h2
    rw [chunk_tables, chunk_tables]
    rw [if_neg (by simpa [List.isEmpty_iff] using h1),
      if_neg (by omega), List.append_nil]
    constructor
    · have hmem : ∀ g ∈ table_rows_go cfg.chunk_size
          (Tables.split_char '\n' table.text) [] 0,
          Tables.split_char '\n' (List.intercalate ['\n'] g) = g := by
        intro g hg
        refine split_char_intercalate_plain '\n' g ?_
          (table_rows_go_ne_nil _ _ _ _ g hg)
        intro row hrow c hc
        have hrowmem : row ∈ Tables.split_char '\n' table.text := by
          have hj : row ∈ (table_rows_go cfg.chunk_size
              (Tables.split_char '\n' table.text) [] 0).flatten :=
            List.mem_flatten.mpr ⟨g, hg, hrow⟩
          rw [table_rows_go_join] at hj
          simpa using hj
        intro hceq
        subst hceq
        exact split_char_mem_no_sep '\n' table.text row hrowmem hc
      rw [map_split_mk metadata _ hmem, table_rows_go_join]
      rfl
    · intro c hc
      rcases List.mem_map.mp hc with ⟨g, _, rfl⟩
      rfl

/-- Witness for C7 (amended): a small concrete table is kept whole, and a
two-row table with max_chunk_size zero splits exactly at its row
boundary. -/
theorem table_atomicity_amended_witness :
    chunk_tables { chunk_size := 1000, chunk_overlap := 200, max_chunk_size := 1500 }
      [{ text := "| a | b |".toList, page := some 2, table_index := some 0 }]
      { file_name := none }
      = [{ text := "| a | b |".toList
           metadata := { file_name := none }
           chunk_type := "table".toList
           table_page := some 2
           table_index := some 0 }] ∧
    ((chunk_tables { chunk_size := 0, chunk_overlap := 0, max_chunk_size := 0 }
        [{ text := "| a |\n| b |".toList, page := none, table_index := none }]
        { file_name := none }).map
        (fun c => Tables.split_char '\n' c.text)).flatten
      = Tables.split_char '\n' ("| a |\n| b |".toList) :=
  ⟨table_atomicity_amended.1 _ _ _ (by decide) (by decide),
   (table_atomicity_amended.2 _ _ _ (by decide) (by decide)).1⟩

theorem assign_go_length (file_name : Option Str) :
    ∀ (k : Nat) (l : List Chunk),
    (assign_go file_name k l).length = l.length := by
  intro k l
  induction l generalizing k with
  | nil => rfl
  | cons c rest ih =>
    rw [assign_go]
    simp [ih]

theorem assign_go_map_index (file_name : Option Str) :
    ∀ (l : List Chunk) (k : Nat),
    (assign_go file_name k l).map Chunk.chunk_index
      = List.range' k l.length := by
  intro l
  induction l with
  | nil => intro k; rfl
  | cons c rest ih =>
    intro k
    rw [assign_go, List.map_cons, ih, List.length_cons, List.range'_succ]

theorem assign_go_map_id (file_name : Option Str) :
    ∀ (l : List Chunk) (k : Nat),
    (assign_go file_name k l).map Chunk.chunk_id
      = (List.range' k l.length).map (chunk_id_of file_name) := by
  intro l
  induction l with
  | nil => intro k; rfl
  | cons c rest ih =>
    intro k
    rw [assign_go, List.map_cons, ih, List.length_cons, List.range'_succ,
      List.map_cons]

theorem assign_go_map_text (file_name : Option Str) :
    ∀ (l : List Chunk) (k : Nat),
    (assign_go file_name k l).map Chunk.text = l.map Chunk.text := by
  intro l
  induction l with
  | nil => intro k; rfl
  | cons c rest ih =>
    intro k
    rw [assign_go, List.map_cons, ih, List.map_cons]

theorem assign_go_map_token (file_name : Option Str) :
    ∀ (l : List Chunk) (k : Nat),
    (assign_go file_name k l).map Chunk.token_count
      = l.map (fun c => count_tokens c.text) := by
  intro l
  induction l with
  | nil => intro k; rfl
  | cons c rest ih =>
    intro k
    rw [assign_go, List.map_cons, ih, List.map_cons]

theorem assign_go_map_count (file_name : Option Str) :
    ∀ (l : List Chunk) (k : Nat),
    (assign_go file_name k l).map (fun c => count_tokens c.text)
      = l.map (fun c => count_tokens c.text) := by
  intro l
  induction l with
  | nil => intro k; rfl
  | cons c rest ih =>
    intro k
    rw [assign_go, List.map_cons, ih, List.map_cons]

/-- C8: chunking is deterministic and its identity data is structural:
running chunk_document twice yields the same chunks; the chunk indices are
exactly 0, 1, ..., n-1 in order; each chunk id is derived from the
document's file name (default doc) and the chunk's index alone; and each
stored token count is the token estimate of that chunk's own text. -/
theorem chunk_identity_idempotent :
    ∀ (cfg : ChunkerConfig) (document : Document),
      chunk_document cfg document = chunk_document cfg document ∧
      (chunk_document cfg document).map Chunk.chunk_index
        = List.range (chunk_document cfg document).length ∧
      (chunk_document cfg document).map Chunk.chunk_id
        = (List.range (chunk_document cfg document).length).map
            (chunk_id_of document.metadata.file_name) ∧
      (chunk_document cfg document).map Chunk.token_count
        = (chunk_document cfg document).map
            (fun c => count_tokens c.text) := by
  intro cfg document
  refine ⟨rfl, ?_, ?_, ?_⟩
  · rw [chunk_document, assign_go_map_index, assign_go_length,
      List.range_eq_range']
  · rw [chunk_document, assign_go_map_id, assign_go_length,
      List.range_eq_range']
  · rw [chunk_document, assign_go_map_token, assign_go_map_count]

end Chunker

end Pipeline
